import Mathlib

/-!
Verification development for the ammunition-generation pipeline of
`Tank/stepper` (`missile.py` and `config.py`): the chunked binary ammo
reader, the URI-family readers, the slow-log reader, the request builder
`HttpAmmo`, and the factory's limit resolution.

The Python 2 source is shallowly embedded: a file opened in binary mode
is a list of characters plus a cursor; `readline`, `read`, `seek(0)` and
`tell()` are explicit state-passing operations; the generators become
fuel-indexed functions producing a trace of events (`yield`, the
`info.status` field assignments, raised `AmmoFileError`s).  A Python
generator executes the code between two `yield`s when the next element is
pulled, so the observable status after the consumer has drawn `n` records
is determined by the trace prefix ending at the `n`-th `yield` event.
Python `set` objects are modelled as duplicate-free lists in insertion
order (set iteration order is unspecified in the source; order-sensitive
facts are never proved about it).
-/

/-- A binary-mode file: immutable contents plus a read cursor. -/
structure File where
  data : List Char
  pos : Nat
deriving Repr, DecidableEq

/-- Characters of one line: everything up to and including the first
newline, or the whole list when there is none. -/
def takeLine : List Char → List Char
  | [] => []
  | c :: cs => if c = '\n' then [c] else c :: takeLine cs

/-- `file.readline()`: at end of file the empty string is returned and
the cursor does not move. -/
def File.readline (f : File) : String × File :=
  let l := takeLine (f.data.drop f.pos)
  (String.mk l, ⟨f.data, f.pos + l.length⟩)

/-- `file.read(n)`: for `n ≥ 0` reads at most `n` bytes; Python 2 reads
the whole remainder of the file when `n` is negative. -/
def File.read (f : File) (n : Int) : String × File :=
  let rest := f.data.drop f.pos
  let taken := if n < 0 then rest else rest.take n.toNat
  (String.mk taken, ⟨f.data, f.pos + taken.length⟩)

/-- `file.seek(0)`. -/
def File.seek0 (f : File) : File := ⟨f.data, 0⟩

/-- `file.tell()`. -/
def File.tell (f : File) : Nat := f.pos

/-- The whitespace class used by Python 2 `str.split()` with no
arguments: space, tab, newline, carriage return, vertical tab, form feed. -/
def isPySpace (c : Char) : Bool :=
  c = ' ' || c = '\t' || c = '\n' || c = '\r' || c.toNat = 11 || c.toNat = 12

def pySplitGo : List Char → List Char → List String
  | [], acc => if acc.isEmpty then [] else [String.mk acc.reverse]
  | c :: cs, acc =>
    if isPySpace c then
      if acc.isEmpty then pySplitGo cs [] else String.mk acc.reverse :: pySplitGo cs []
    else pySplitGo cs (c :: acc)

/-- Python 2 `s.split()`: split on runs of whitespace, no empty fields. -/
def pySplit (s : String) : List String := pySplitGo s.data []

/-- Strip characters satisfying `p` from both ends of a list. -/
def stripChars (p : Char → Bool) (l : List Char) : List Char :=
  ((l.dropWhile p).reverse.dropWhile p).reverse

/-- Python `s.strip(chars)`. -/
def pyStrip (chars : List Char) (s : String) : String :=
  String.mk (stripChars (fun c => chars.contains c) s.data)

/-- Python `s.rstrip(chars)`. -/
def pyRstrip (chars : List Char) (s : String) : String :=
  String.mk ((s.data.reverse.dropWhile (fun c => chars.contains c)).reverse)

/-- `s.strip('\r\n')`, as used on chunk header lines. -/
def stripCRLF (s : String) : String := pyStrip ['\r', '\n'] s

/-- Python `s.startswith(pre)`. -/
def pyStartsWith (s pre : String) : Bool := pre.data.isPrefixOf s.data

def digitsToNat (l : List Char) : Nat :=
  l.foldl (fun n c => 10 * n + (c.toNat - '0'.toNat)) 0

/-- Parse a non-empty all-digit character list. -/
def parseDigits (l : List Char) : Option Nat :=
  if l ≠ [] ∧ l.all Char.isDigit then some (digitsToNat l) else none

/-- Python 2 `int(s)` on a whitespace-free string (the only shape that
reaches it here, since the argument is a field of `str.split()`):
an optional sign followed by one or more decimal digits, `none` on a
`ValueError`.  Note that negative numbers parse successfully. -/
def pyInt (s : String) : Option Int :=
  match s.data with
  | '-' :: rest => (parseDigits rest).map fun n => -(n : Int)
  | '+' :: rest => (parseDigits rest).map fun n => (n : Int)
  | l => (parseDigits l).map fun n => (n : Int)

/-- Add to a Python `set` modelled as a duplicate-free list in insertion
order: `s.add(x)`. -/
def pySetAdd (l : List String) (x : String) : List String :=
  if x ∈ l then l else l ++ [x]

/-- `set(xs)` for a list `xs`. -/
def pySetOfList (l : List String) : List String := l.foldl pySetAdd []

/-- `HttpAmmo` from `missile.py`: method, URI, protocol label, header
set and body. -/
structure HttpAmmo where
  method : String
  uri : String
  proto : String
  headers : List String
  body : String
deriving Repr, DecidableEq

/-- `HttpAmmo.__init__(uri, headers, method, http_ver, body)`: headers
become a set, and a `Content-Length` header is added when the body is
non-empty. -/
def HttpAmmo.make (uri : String) (headers : List String) (method : String)
    (httpVer : String) (body : String) : HttpAmmo :=
  let hs := pySetOfList headers
  let hs := if body.length ≠ 0 then pySetAdd hs ("Content-Length: " ++ toString body.length) else hs
  { method := method, uri := uri, proto := "HTTP/" ++ httpVer, headers := hs, body := body }

/-- `HttpAmmo.to_s()`:
`"%s %s %s\r\n%s\r\n%s" % (method, uri, proto, headers, body)` where
`headers` is the join of the header set with `'\r\n'` plus a trailing
`'\r\n'`, or empty when there are no headers. -/
def HttpAmmo.to_s (a : HttpAmmo) : String :=
  let headersStr := if a.headers.isEmpty then "" else String.intercalate "\r\n" a.headers ++ "\r\n"
  a.method ++ " " ++ a.uri ++ " " ++ a.proto ++ "\r\n" ++ headersStr ++ "\r\n" ++ a.body

/-- The underlying Python exception captured by the
`except (IndexError, ValueError)` handler of the chunked readers. -/
inductive PyExc where
  | indexError
  | valueError (lit : String)
deriving Repr, DecidableEq

/-- Observable events of a reader's generator, in execution order:
`yield`ed records, assignments to `info.status.af_position`, calls to
`info.status.inc_loop_count()`, and raised `AmmoFileError`s (which end
the trace).  `errTrunc` is the "Unexpected end of file: read %s bytes
instead of %s" error; `errParse` is the "Error while reading ammo file.
Position: %s, header: '%s', original exception: %s" error. -/
inductive Ev where
  | yield (payload : String) (marker : Option String)
  | setAfPos (n : Nat)
  | incLoop
  | errTrunc (got : Nat) (expected : Int)
  | errParse (pos : Nat) (header : String) (exc : PyExc)
deriving Repr, DecidableEq

/-- The inner `read_chunk_header` of `AmmoFileReader.__iter__`, with
explicit fuel for the blank-line-skipping loop (each non-returning pass
consumes at least one byte, so `data.length + 1` always suffices). -/
def rchAux : Nat → File → String × File
  | 0, f => ("", f)
  | fuel + 1, f =>
    let r := f.readline
    if r.1 = "" then ("", r.2)
    else
      let ch := stripCRLF r.1
      if ch = "" then rchAux fuel r.2 else (ch, r.2)

/-- `read_chunk_header(ammo_file)` of `AmmoFileReader`: skip lines that
strip to empty, return the next stripped non-blank line, or `""` at end
of file. -/
def read_chunk_header (f : File) : String × File := rchAux (f.data.length + 1) f

/-- The `while chunk_header:` loop of `AmmoFileReader.__iter__`
(`missile.py` lines 124-150), one fuel unit per loop iteration.  The
state is the open file and the header line already read; the result is
the event trace. -/
def afrLoop : Nat → File → String → List Ev
  | 0, _, _ => []
  | fuel + 1, f, ch =>
    if ch = "" then []
    else
      match pySplit ch with
      | [] => [.errParse f.tell ch .indexError]
      | f0 :: rest =>
        match pyInt f0 with
        | none => [.errParse f.tell ch (.valueError f0)]
        | some chunkSize =>
          if chunkSize = 0 then
            let r := read_chunk_header f.seek0
            .incLoop :: afrLoop fuel r.2 r.1
          else
            let marker := rest.head?
            let m := f.read chunkSize
            if (m.1.length : Int) < chunkSize then
              [.errTrunc m.1.length chunkSize]
            else
              let r := read_chunk_header m.2
              if r.1 = "" then
                let r2 := read_chunk_header r.2.seek0
                .yield m.1 marker :: .incLoop :: .setAfPos r2.2.tell :: afrLoop fuel r2.2 r2.1
              else
                .yield m.1 marker :: .setAfPos r.2.tell :: afrLoop fuel r.2 r.1

/-- `AmmoFileReader.__iter__` on a file with the given contents: read
the first chunk header, then run the main loop. -/
def afrTrace (data : List Char) (fuel : Nat) : List Ev :=
  let r := read_chunk_header ⟨data, 0⟩
  afrLoop fuel r.2 r.1

/-- The records `yield`ed along a trace. -/
def recordsOf (t : List Ev) : List (String × Option String) :=
  t.filterMap fun e =>
    match e with
    | .yield p m => some (p, m)
    | _ => none

/-- Value of `info.status.af_position` observed by the consumer right
after drawing the `n`-th record (1-based): the last `setAfPos` before the
`n`-th `yield` of the trace; `none` when the field was never assigned or
the trace has fewer than `n` records. -/
def afPosGo : Option Nat → Nat → List Ev → Option Nat
  | _, _, [] => none
  | cur, n, .yield _ _ :: t => if n ≤ 1 then cur else afPosGo cur (n - 1) t
  | _, n, .setAfPos v :: t => afPosGo (some v) n t
  | cur, n, _ :: t => afPosGo cur n t

def afPosAfterPulls (t : List Ev) (n : Nat) : Option Nat := afPosGo none n t

/-- Result of `UriPostReader`'s inner `read_chunk_header`: the stripped
header line (or `""` at end of file), the file, and the header set,
which the scan may have grown from bracket-delimited lines. -/
structure UprRchR where
  hdr : String
  file : File
  hs : List String
deriving Repr, DecidableEq

/-- The character class of `line.strip('\r\n[]\t ')` used on bracketed
header lines. -/
def brStripSet : List Char := ['\r', '\n', '[', ']', '\t', ' ']

/-- The inner `read_chunk_header` of `UriPostReader.__iter__`
(`missile.py` lines 233-243): lines starting with `[` are diverted into
the accumulated header set, blank lines are skipped, end of file returns
`""`. -/
def uprRchAux : Nat → List String → File → UprRchR
  | 0, hs, f => ⟨"", f, hs⟩
  | fuel + 1, hs, f =>
    let r := f.readline
    if pyStartsWith r.1 "[" then uprRchAux fuel (pySetAdd hs (pyStrip brStripSet r.1)) r.2
    else if r.1 = "" then ⟨"", r.2, hs⟩
    else
      let ch := stripCRLF r.1
      if ch = "" then uprRchAux fuel hs r.2 else ⟨ch, r.2, hs⟩

def upr_read_chunk_header (hs : List String) (f : File) : UprRchR :=
  uprRchAux (f.data.length + 1) hs f

/-- The `while chunk_header:` loop of `UriPostReader.__iter__`
(`missile.py` lines 247-283).  A chunk header is
`<size> <uri> [marker]`; a missing URI is the `IndexError` of
`fields[1]`; the record is the rendered POST `HttpAmmo` built from the
current accumulated header set and the chunk body. -/
def uprLoop : Nat → String → List String → File → String → List Ev
  | 0, _, _, _, _ => []
  | fuel + 1, ver, hs, f, ch =>
    if ch = "" then []
    else
      match pySplit ch with
      | [] => [.errParse f.tell ch .indexError]
      | f0 :: rest =>
        match pyInt f0 with
        | none => [.errParse f.tell ch (.valueError f0)]
        | some chunkSize =>
          if chunkSize = 0 then
            let r := upr_read_chunk_header hs f.seek0
            .incLoop :: uprLoop fuel ver r.hs r.file r.hdr
          else
            match rest with
            | [] => [.errParse f.tell ch .indexError]
            | uri :: rest2 =>
              let marker := rest2.head?
              let m := f.read chunkSize
              if (m.1.length : Int) < chunkSize then
                [.errTrunc m.1.length chunkSize]
              else
                let payload := (HttpAmmo.make uri hs "POST" ver m.1).to_s
                let r := upr_read_chunk_header hs m.2
                if r.hdr = "" then
                  let r2 := upr_read_chunk_header r.hs r.file.seek0
                  .yield payload marker :: .incLoop :: .setAfPos r2.file.tell ::
                    uprLoop fuel ver r2.hs r2.file r2.hdr
                else
                  .yield payload marker :: .setAfPos r.file.tell ::
                    uprLoop fuel ver r.hs r.file r.hdr

/-- `UriPostReader.__iter__` on a file with the given contents, with the
constructor's `headers` argument (made into a set) and `http_ver`. -/
def uprTrace (data : List Char) (ver : String) (headers : List String) (fuel : Nat) : List Ev :=
  let r := upr_read_chunk_header (pySetOfList headers) ⟨data, 0⟩
  uprLoop fuel ver r.hs r.file r.hdr

/-- Python 2 iteration over a file's lines (`for line in ammo_file`):
pieces ending in `'\n'`, plus a final unterminated piece if any. -/
def fileLinesGo : List Char → List Char → List String
  | [], acc => if acc.isEmpty then [] else [String.mk acc.reverse]
  | c :: cs, acc =>
    if c = '\n' then String.mk (acc.reverse ++ ['\n']) :: fileLinesGo cs []
    else fileLinesGo cs (c :: acc)

def fileLines (data : List Char) : List String := fileLinesGo data []

/-- One pass of `SlowLogReader.__iter__`'s `for line in ammo_file` loop
(`missile.py` lines 165-172), threading the running byte position (for
`af_position`) and the pending `request` buffer, which the pass returns
unflushed: a line starting with `#` flushes a non-empty buffer as a
record, any other line is appended to the buffer. -/
def slowLinesEv : Nat → String → List String → List Ev × String
  | _, req, [] => ([], req)
  | pos, req, l :: ls =>
    let pos' := pos + l.length
    if pyStartsWith l "#" then
      if req = "" then
        let r := slowLinesEv pos' req ls
        (.setAfPos pos' :: r.1, r.2)
      else
        let r := slowLinesEv pos' "" ls
        (.setAfPos pos' :: .yield req none :: r.1, r.2)
    else
      let r := slowLinesEv pos' (req ++ l) ls
      (.setAfPos pos' :: r.1, r.2)

/-- `SlowLogReader.__iter__` for a given number of passes of the
`while True:` loop: each pass runs over all lines with the buffer
carried over from the previous pass (the source never resets `request`),
then seeks to 0, publishes `af_position = 0` and increments the loop
count. -/
def slowLogGo : Nat → String → List Char → List Ev
  | 0, _, _ => []
  | passes + 1, req, data =>
    let r := slowLinesEv 0 req (fileLines data)
    r.1 ++ .setAfPos 0 :: .incLoop :: slowLogGo passes r.2 data

def slowLogTrace (data : List Char) (passes : Nat) : List Ev :=
  slowLogGo passes "" data

/-- The `request` buffer still pending after `n` passes of
`SlowLogReader` over the file. -/
def slowLogCarry (data : List Char) : Nat → String
  | 0 => ""
  | n + 1 => (slowLinesEv 0 (slowLogCarry data n) (fileLines data)).2

/-- One line of `UriReader.__iter__`'s `for` loop (`missile.py` lines
206-216): a `[`-line grows the header set, a line that is non-empty
after `rstrip('\r\n')` is rendered as a GET `HttpAmmo` with the current
header set.  Records are kept structured; the generator yields
`(ammo.to_s(), None)`. -/
def uriLineStep (ver : String) (hs : List String) (line : String) :
    List String × List HttpAmmo :=
  if pyStartsWith line "[" then (pySetAdd hs (pyStrip brStripSet line), [])
  else if (pyRstrip ['\r', '\n'] line).length ≠ 0 then
    (hs, [HttpAmmo.make (pyRstrip ['\r', '\n'] line) hs "GET" ver ""])
  else (hs, [])

/-- One full pass of `UriReader` over the file's lines. -/
def uriPass (ver : String) (hs : List String) : List String → List String × List HttpAmmo
  | [] => (hs, [])
  | l :: ls =>
    let r := uriLineStep ver hs l
    let r2 := uriPass ver r.1 ls
    (r2.1, r.2 ++ r2.2)

/-- `UriReader.__iter__` for a given number of passes: the header set is
threaded across passes and never reset. -/
def uriReaderGo (ver : String) : Nat → List String → List String → List HttpAmmo
  | 0, _, _ => []
  | passes + 1, hs, lines =>
    let r := uriPass ver hs lines
    r.2 ++ uriReaderGo ver passes r.1 lines

/-- The structured records of `UriReader` on a file, starting from the
constructor's `headers` argument (made into a set). -/
def uriReaderAmmos (data : List Char) (ver : String) (headers : List String)
    (passes : Nat) : List HttpAmmo :=
  uriReaderGo ver passes (pySetOfList headers) (fileLines data)

/-- The records the generator yields: `(ammo.to_s(), None)`. -/
def uriReaderRecords (data : List Char) (ver : String) (headers : List String)
    (passes : Nat) : List (String × Option String) :=
  (uriReaderAmmos data ver headers passes).map fun a => (a.to_s, none)

/-- `UriStyleGenerator.__init__`: one GET `HttpAmmo` per URI, rendered
up front and cycled forever. -/
def uriStyleMissiles (uris : List String) (headers : List String) (ver : String) :
    List (String × Option String) :=
  uris.map fun u => ((HttpAmmo.make u headers "GET" ver "").to_s, none)

/-- The assignment `info.status.loop_count = info.status.ammo_count /
self.uri_count` executed after each yield of
`UriStyleGenerator.__iter__` (`missile.py` line 100).  Both operands are
Python 2 `int`s, so `/` is floor division; `ammo_count` is the record
count maintained by the driver (the status sink is external to `src/`). -/
def uriStyleLoopCountUpdate (ammo_count uri_count : Nat) : Nat :=
  ammo_count / uri_count

/-- Modelled from the spec: the spec's reading of the same assignment as
"(total records yielded so far) divided by (list length) ... an
approximation, not an exact integer loop counter ... (do not round)" —
an exact rational quotient. -/
def uriStyleLoopCountSpec (ammo_count uri_count : Nat) : ℚ :=
  (ammo_count : ℚ) / (uri_count : ℚ)

/-- Modelled from the spec: "field 0 must parse as a non-negative
integer" — whether a header field parses as a *non-negative* integer
(the property named by claim C3). -/
def parsesAsNonNegInt (s : String) : Bool :=
  match pyInt s with
  | some n => decide (0 ≤ n)
  | none => false

/-- The limit resolution of `ComponentFactory.__init__` (`config.py`
lines 32-41).  `none` for a limit argument is Python's `None` (the
parameter default); `int(None)` raises `TypeError` before any other
processing, which is the `Except.error` case.  `rps` is the truthiness
of `rps_schedule`.  On success the pair is the resolved
(`loop_limit`, `ammo_limit`) published to `info.status`, `none` meaning
"no limit". -/
def resolveLimits (loop_limit ammo_limit : Option Int) (rps : Bool) :
    Except String (Option Int × Option Int) :=
  match loop_limit with
  | none => .error "TypeError: int() argument must be a string or a number, not NoneType"
  | some ll =>
    let ll' : Option Int := if ll = -1 then none else some ll
    match ammo_limit with
    | none => .error "TypeError: int() argument must be a string or a number, not NoneType"
    | some al =>
      let al' : Option Int := if al = -1 then none else some al
      let ll'' : Option Int :=
        match ll', al', rps with
        | none, none, false => some 1
        | _, _, _ => ll'
      .ok (ll'', al')

/-- The character class stripped by `strip('\r\n')`. -/
def isCRLF (c : Char) : Bool := c = '\r' || c = '\n'

/-- A chunk of the binary ammo wire format, with optional blank-line
padding before the header line: an entry `k` of `padCRs` stands for the
blank line `'\r' * k ++ '\n'` (any line that strips to empty under
`strip('\r\n')` has this shape). -/
structure Chunk where
  padCRs : List Nat
  sizeStr : String
  marker : Option String
  body : List Char
deriving Repr, DecidableEq

def padBytesOf (pads : List Nat) : List Char :=
  (pads.map fun k => List.replicate k '\r' ++ ['\n']).flatten

def Chunk.padBytes (c : Chunk) : List Char := padBytesOf c.padCRs

/-- The chunk's header line content (without the terminating newline):
`<size>` or `<size> <marker>`. -/
def Chunk.hdrStr (c : Chunk) : String :=
  c.sizeStr ++ match c.marker with | none => "" | some m => " " ++ m

def Chunk.headerBytes (c : Chunk) : List Char := c.hdrStr.data ++ ['\n']

def Chunk.bytes (c : Chunk) : List Char := c.padBytes ++ c.headerBytes ++ c.body

/-- Well-formedness of a chunk: the size field is all digits and parses
to the body length, the body is non-empty (zero-size chunks are the
restart sentinel, not data chunks), and the marker token, when present,
is non-empty and whitespace-free. -/
def Chunk.wfb (c : Chunk) : Bool :=
  pyInt c.sizeStr == some (c.body.length : Int)
  && !c.body.isEmpty
  && c.sizeStr.data.all Char.isDigit
  && c.sizeStr.data.all (fun ch => !isPySpace ch)
  && !(c.sizeStr.data.isEmpty)
  && (match c.marker with
      | none => true
      | some m => !(m.data.isEmpty) && m.data.all fun ch => !isPySpace ch)

/-- The whole ammo file built from a chunk sequence. -/
def mkAmmoData (cs : List Chunk) : List Char := (cs.map Chunk.bytes).flatten

/-- File offset right after the first chunk's header line has been read
(from offset 0). -/
def firstHdrPos (cs : List Chunk) : Nat :=
  match cs with
  | [] => 0
  | c :: _ => c.padBytes.length + c.headerBytes.length

/-- Closed form of `afrLoop`'s trace over a well-formed chunk file `cs`:
`base` is the byte offset of the current chunk, the last list argument
the chunk suffix still to process in this cycle; one fuel unit per
chunk.  Reaching the end of the list restarts from `cs`. -/
def afrCycle (cs : List Chunk) : Nat → Nat → List Chunk → List Ev
  | 0, _, _ => []
  | _ + 1, _, [] => []
  | fuel + 1, _, [c] =>
    .yield (String.mk c.body) c.marker :: .incLoop :: .setAfPos (firstHdrPos cs) ::
      afrCycle cs fuel 0 cs
  | fuel + 1, base, c :: c2 :: rest =>
    .yield (String.mk c.body) c.marker ::
      .setAfPos (base + c.bytes.length + c2.padBytes.length + c2.headerBytes.length) ::
      afrCycle cs fuel (base + c.bytes.length) (c2 :: rest)

/-- Two chunks that differ only in blank-line padding. -/
def SameModuloPads (c₁ c₂ : Chunk) : Prop :=
  c₁.sizeStr = c₂.sizeStr ∧ c₁.marker = c₂.marker ∧ c₁.body = c₂.body

/-- The `af_position` value observed after the `n`-th pull, computed
from the chunk layout: it is the offset just past the `n`-th chunk's
header line (assigned while serving the `n`-th pull, before that
chunk's body is read). -/
def cyclePosTarget : Nat → Nat → List Chunk → Option Nat
  | _, 0, _ => none
  | _, 1, _ => none
  | base, 2, c :: c2 :: _ =>
    some (base + c.bytes.length + c2.padBytes.length + c2.headerBytes.length)
  | base, n + 3, c :: c2 :: rest => cyclePosTarget (base + c.bytes.length) (n + 2) (c2 :: rest)
  | _, _ + 2, _ => none

def hdrLineLen (c : Chunk) : Nat := c.headerBytes.length

/-- The corrected `af_position` value after `n` records within the first
loop over a padding-free chunk file: the first `n` header-line lengths
plus the first `n - 1` chunk sizes (the current record's body is not yet
reflected). -/
def c4AmendedPos (cs : List Chunk) (n : Nat) : Nat :=
  ((cs.take n).map hdrLineLen).sum + ((cs.take (n - 1)).map fun c => c.body.length).sum

/-- A line that can appear before a chunk header in the URI+POST format:
a blank line (`'\r' * k ++ '\n'`) or a bracket-delimited header line
(raw content without the newline). -/
inductive PreLine where
  | blank (crs : Nat)
  | bracket (content : String)
deriving Repr, DecidableEq

def PreLine.bytes : PreLine → List Char
  | .blank k => List.replicate k '\r' ++ ['\n']
  | .bracket s => s.data ++ ['\n']

def PreLine.wfb : PreLine → Bool
  | .blank _ => true
  | .bracket s => pyStartsWith s "[" && !(s.data.contains '\n')

/-- Effect of scanning one pre-line on the accumulated header set. -/
def PreLine.applyTo (hs : List String) : PreLine → List String
  | .blank _ => hs
  | .bracket s => pySetAdd hs (pyStrip brStripSet (String.mk (s.data ++ ['\n'])))

def applyPres (hs : List String) (pres : List PreLine) : List String :=
  pres.foldl PreLine.applyTo hs

/-- The bracket contents of a pre-line list (blank lines dropped). -/
def bracketsOf (pres : List PreLine) : List String :=
  pres.filterMap fun p => match p with | .bracket s => some s | .blank _ => none

/-- A chunk of the URI+POST format: pre-lines (blank or bracketed header
lines), then a header `<size> <uri> [marker]`, then the body. -/
structure PChunk where
  pres : List PreLine
  sizeStr : String
  uri : String
  marker : Option String
  body : List Char
deriving Repr, DecidableEq

def PChunk.preBytes (c : PChunk) : List Char := (c.pres.map PreLine.bytes).flatten

def PChunk.hdrStr (c : PChunk) : String :=
  c.sizeStr ++ " " ++ c.uri ++ match c.marker with | none => "" | some m => " " ++ m

def PChunk.headerBytes (c : PChunk) : List Char := c.hdrStr.data ++ ['\n']

def PChunk.bytes (c : PChunk) : List Char := c.preBytes ++ c.headerBytes ++ c.body

def PChunk.wfb (c : PChunk) : Bool :=
  c.pres.all PreLine.wfb
  && pyInt c.sizeStr == some (c.body.length : Int)
  && !c.body.isEmpty
  && c.sizeStr.data.all Char.isDigit
  && c.sizeStr.data.all (fun ch => !isPySpace ch)
  && !(c.sizeStr.data.isEmpty)
  && !(c.uri.data.isEmpty) && c.uri.data.all (fun ch => !isPySpace ch)
  && (match c.marker with
      | none => true
      | some m => !(m.data.isEmpty) && m.data.all fun ch => !isPySpace ch)

def mkUriPostData (cs : List PChunk) : List Char := (cs.map PChunk.bytes).flatten

/-- The record `UriPostReader` yields for chunk `c` when the accumulated
header set is `hs`. -/
def uprChunkPayload (ver : String) (hs : List String) (c : PChunk) : String :=
  (HttpAmmo.make c.uri hs "POST" ver (String.mk c.body)).to_s

def uprFirstHdrPos (cs : List PChunk) : Nat :=
  match cs with
  | [] => 0
  | c :: _ => c.preBytes.length + c.headerBytes.length

/-- Closed form of `uprLoop`'s trace over a well-formed URI+POST chunk
file, threading the accumulated header set (`hs` has already absorbed
the current chunk's pre-lines). -/
def uprCycle (ver : String) (cs : List PChunk) : Nat → List String → Nat → List PChunk → List Ev
  | 0, _, _, _ => []
  | _ + 1, _, _, [] => []
  | fuel + 1, hs, _, [c] =>
    let hs2 := applyPres hs (match cs with | [] => [] | c0 :: _ => c0.pres)
    .yield (uprChunkPayload ver hs c) c.marker :: .incLoop :: .setAfPos (uprFirstHdrPos cs) ::
      uprCycle ver cs fuel hs2 0 cs
  | fuel + 1, hs, base, c :: c2 :: rest =>
    .yield (uprChunkPayload ver hs c) c.marker ::
      .setAfPos (base + c.bytes.length + c2.preBytes.length + c2.headerBytes.length) ::
      uprCycle ver cs fuel (applyPres hs c2.pres) (base + c.bytes.length) (c2 :: rest)

/-- Two URI+POST chunks that differ only by inserted blank lines (the
bracketed header lines and everything else agree). -/
def SameModuloBlanks (c₁ c₂ : PChunk) : Prop :=
  bracketsOf c₁.pres = bracketsOf c₂.pres ∧ c₁.sizeStr = c₂.sizeStr ∧ c₁.uri = c₂.uri
  ∧ c₁.marker = c₂.marker ∧ c₁.body = c₂.body

/-- Total byte length of a list of lines. -/
def linesLen (ls : List String) : Nat := (ls.map String.length).sum

/-- Concatenation of a list of lines. -/
def concatLines : List String → String
  | [] => ""
  | l :: ls => l ++ concatLines ls

/-- Iterated carry of the slow-log buffer starting from `req`. -/
def slowCarryIter (data : List Char) (req : String) : Nat → String
  | 0 => req
  | n + 1 => (slowLinesEv 0 (slowCarryIter data req n) (fileLines data)).2

/-! ### Basic lemmas about the Python string/set helpers -/

theorem string_mk_eq_empty_iff (l : List Char) : String.mk l = "" ↔ l = [] := by
  constructor
  · intro h
    exact congrArg String.data h
  · intro h
    rw [h]

theorem pySetAdd_mem_self (l : List String) (x : String) : x ∈ pySetAdd l x := by
  unfold pySetAdd
  split
  · assumption
  · simp

theorem pySetAdd_mem_of_mem (l : List String) (x y : String) (h : y ∈ l) :
    y ∈ pySetAdd l x := by
  unfold pySetAdd
  split
  · exact h
  · simp [h]

theorem pySetAdd_nodup (l : List String) (x : String) (h : l.Nodup) :
    (pySetAdd l x).Nodup := by
  unfold pySetAdd
  split
  · exact h
  · rename_i hx
    refine List.Nodup.append h (List.nodup_singleton x) ?_
    intro a ha hax
    rw [List.mem_singleton] at hax
    exact hx (hax ▸ ha)

theorem foldl_pySetAdd_nodup (l : List String) :
    ∀ acc : List String, acc.Nodup → (l.foldl pySetAdd acc).Nodup := by
  induction l with
  | nil => intro acc h; exact h
  | cons a t ih =>
    intro acc h
    exact ih (pySetAdd acc a) (pySetAdd_nodup acc a h)

theorem pySetOfList_nodup (l : List String) : (pySetOfList l).Nodup :=
  foldl_pySetAdd_nodup l [] List.nodup_nil

theorem foldl_pySetAdd_mem (l : List String) :
    ∀ acc : List String, ∀ x, x ∈ acc → x ∈ l.foldl pySetAdd acc := by
  induction l with
  | nil => intro acc x h; exact h
  | cons a t ih =>
    intro acc x h
    exact ih (pySetAdd acc a) x (pySetAdd_mem_of_mem acc a x h)

theorem foldl_pySetAdd_mem_or (l : List String) :
    ∀ acc : List String, ∀ x, x ∈ acc ∨ x ∈ l → x ∈ l.foldl pySetAdd acc := by
  induction l with
  | nil =>
    intro acc x h
    simpa using h.resolve_right (by simp)
  | cons a t ih =>
    intro acc x h
    rcases h with h | h
    · exact ih (pySetAdd acc a) x (Or.inl (pySetAdd_mem_of_mem acc a x h))
    · rcases List.mem_cons.mp h with h1 | h1
      · subst h1
        exact ih (pySetAdd acc x) x (Or.inl (pySetAdd_mem_self acc x))
      · exact ih (pySetAdd acc a) x (Or.inr h1)

theorem mem_pySetOfList (l : List String) (x : String) (h : x ∈ l) :
    x ∈ pySetOfList l :=
  foldl_pySetAdd_mem_or l [] x (Or.inr h)

/-! ### C5, C6, C9 -/

/-- C5: the claim says construction with no loop limit, no ammo limit
and no rate schedule succeeds and resolves the loop limit to 1.  The
code's own signature defaults these limits to `None` and later checks
`loop_limit is None`, but `int(loop_limit)` runs first and `int(None)`
raises `TypeError`, so construction with the defaults fails.  (With both
limits explicitly `-1` — documented as "infinite" — and no schedule, the
resolved loop limit is `1`, not unbounded.) -/
theorem c5_default_limits_type_error :
    resolveLimits none none false =
      .error "TypeError: int() argument must be a string or a number, not NoneType"
    ∧ resolveLimits (some (-1)) (some (-1)) false = .ok (some 1, none) := ⟨rfl, rfl⟩

/-- C6: for every method, URI, protocol version, header list and
non-empty body, the rendered `HttpAmmo` carries the `Content-Length`
header reflecting the body length exactly once (the header set is
duplicate-free); and the concrete example
`HttpAmmo("/", [], method="POST", body="hi")` renders with exactly
`Content-Length: 2` and body `hi` after the blank separator line. -/
theorem c6_content_length_once (uri : String) (headers : List String)
    (method ver body : String) (hbody : body ≠ "") :
    (HttpAmmo.make uri headers method ver body).headers.count
        ("Content-Length: " ++ toString body.length) = 1
    ∧ (HttpAmmo.make "/" [] "POST" "1.1" "hi").to_s
        = "POST / HTTP/1.1\r\nContent-Length: 2\r\n\r\nhi" := by
  constructor
  · have hlen : body.length ≠ 0 := by
      intro h0
      apply hbody
      cases body with
      | mk l =>
        have : l = [] := List.eq_nil_of_length_eq_zero h0
        rw [this]
    simp only [HttpAmmo.make, if_pos hlen]
    exact List.count_eq_one_of_mem
      (pySetAdd_nodup _ _ (pySetOfList_nodup headers)) (pySetAdd_mem_self _ _)
  · rfl

theorem c6_content_length_once_witness :
    ("hi" : String) ≠ ""
    ∧ (HttpAmmo.make "/x" ["A: 1", "A: 1"] "POST" "1.0" "hi").headers.count
        ("Content-Length: " ++ toString ("hi" : String).length) = 1 :=
  ⟨by decide, (c6_content_length_once "/x" ["A: 1", "A: 1"] "POST" "1.0" "hi" (by decide)).1⟩

/-- C9 counterexample: with a 2-element URI list, after 3 records the
code publishes `3 / 2 = 1` (Python 2 floor division on ints), not the
exact fractional quotient `3/2` the claim requires. -/
theorem c9_counterexample :
    uriStyleLoopCountUpdate 3 2 = 1
    ∧ uriStyleLoopCountSpec 3 2 = 3 / 2
    ∧ (uriStyleLoopCountUpdate 3 2 : ℚ) ≠ uriStyleLoopCountSpec 3 2 := by
  refine ⟨rfl, ?_, ?_⟩ <;> norm_num [uriStyleLoopCountSpec, uriStyleLoopCountUpdate]

/-- C9 amended: after each yield the published loop count is the
*floor* of (records so far) / (URI list length) — integer division, not
the exact non-rounded quotient. -/
theorem c9_amended_floor (a u : Nat) :
    uriStyleLoopCountUpdate a u = ⌊uriStyleLoopCountSpec a u⌋₊ := by
  unfold uriStyleLoopCountUpdate uriStyleLoopCountSpec
  rw [Nat.floor_div_nat]
  simp

/-! ### C1, C2, C3: chunk-header handling -/

theorem pySplit_empty : pySplit "" = [] := rfl

theorem ne_empty_of_pySplit_cons (ch f0 : String) (rest : List String)
    (h : pySplit ch = f0 :: rest) : ch ≠ "" := by
  intro hch
  subst hch
  rw [pySplit_empty] at h
  cases h

theorem string_length_mk (l : List Char) : (String.mk l).length = l.length := rfl

/-- When the declared size exceeds the bytes remaining, `read` returns
exactly the remainder. -/
theorem file_read_all_of_big (f : File) (s : Int)
    (hbig : ((f.data.length - f.pos : Nat) : Int) < s) :
    (f.read s).1.length = f.data.length - f.pos := by
  unfold File.read
  have hneg : ¬ s < 0 := by omega
  simp only [if_neg hneg]
  rw [string_length_mk, List.length_take, List.length_drop]
  omega

/-- C1: when a parsed chunk header's size field equals 0, both
`AmmoFileReader` and `UriPostReader` seek the file to offset 0 and
increment the loop counter; no record is yielded for that header and no
body bytes are read — the generator continues exactly at the state
produced by re-reading a chunk header from offset 0. -/
theorem c1_zero_chunk (fuel : Nat) (f : File) (ch f0 : String) (rest : List String)
    (hsplit : pySplit ch = f0 :: rest) (hzero : pyInt f0 = some 0)
    (fuel2 : Nat) (ver : String) (hs : List String) (g : File) (ch2 g0 : String)
    (rest2 : List String)
    (hsplit2 : pySplit ch2 = g0 :: rest2) (hzero2 : pyInt g0 = some 0) :
    afrLoop (fuel + 1) f ch =
      .incLoop :: afrLoop fuel (read_chunk_header f.seek0).2 (read_chunk_header f.seek0).1
    ∧ uprLoop (fuel2 + 1) ver hs g ch2 =
      .incLoop :: uprLoop fuel2 ver (upr_read_chunk_header hs g.seek0).hs
          (upr_read_chunk_header hs g.seek0).file (upr_read_chunk_header hs g.seek0).hdr := by
  constructor
  · have hch := ne_empty_of_pySplit_cons ch f0 rest hsplit
    simp [afrLoop, hsplit, hzero, hch]
  · have hch := ne_empty_of_pySplit_cons ch2 g0 rest2 hsplit2
    simp [uprLoop, hsplit2, hzero2, hch]

theorem c1_zero_chunk_witness :
    pySplit "0" = ["0"] ∧ pyInt "0" = some 0
    ∧ afrLoop 1 ⟨"0\nX".data, 2⟩ "0" =
        .incLoop :: afrLoop 0 (read_chunk_header (File.seek0 ⟨"0\nX".data, 2⟩)).2
          (read_chunk_header (File.seek0 ⟨"0\nX".data, 2⟩)).1
    ∧ uprLoop 1 "1.1" [] ⟨"0\nX".data, 2⟩ "0" =
        .incLoop :: uprLoop 0 "1.1" (upr_read_chunk_header [] (File.seek0 ⟨"0\nX".data, 2⟩)).hs
          (upr_read_chunk_header [] (File.seek0 ⟨"0\nX".data, 2⟩)).file
          (upr_read_chunk_header [] (File.seek0 ⟨"0\nX".data, 2⟩)).hdr := by
  refine ⟨by decide, by decide, ?_, ?_⟩
  · exact (c1_zero_chunk 0 ⟨"0\nX".data, 2⟩ "0" "0" [] (by decide) (by decide)
      0 "1.1" [] ⟨"0\nX".data, 2⟩ "0" "0" [] (by decide) (by decide)).1
  · exact (c1_zero_chunk 0 ⟨"0\nX".data, 2⟩ "0" "0" [] (by decide) (by decide)
      0 "1.1" [] ⟨"0\nX".data, 2⟩ "0" "0" [] (by decide) (by decide)).2

/-- C2: when a chunk header declares a payload length strictly greater
than the bytes remaining, both chunked readers raise the
`AmmoFileError` reporting bytes actually read vs. expected, and the
trace ends with that error alone — no record (not even a partial one)
is yielded for the chunk. -/
theorem c2_truncated_chunk (fuel : Nat) (f : File) (ch f0 : String) (rest : List String)
    (s : Int)
    (hsplit : pySplit ch = f0 :: rest) (hint : pyInt f0 = some s)
    (hbig : ((f.data.length - f.pos : Nat) : Int) < s)
    (fuel2 : Nat) (ver : String) (hs : List String) (g : File) (ch2 g0 uri : String)
    (rest2 : List String) (s2 : Int)
    (hsplit2 : pySplit ch2 = g0 :: uri :: rest2) (hint2 : pyInt g0 = some s2)
    (hbig2 : ((g.data.length - g.pos : Nat) : Int) < s2) :
    afrLoop (fuel + 1) f ch = [.errTrunc (f.data.length - f.pos) s]
    ∧ uprLoop (fuel2 + 1) ver hs g ch2 = [.errTrunc (g.data.length - g.pos) s2] := by
  constructor
  · have hch := ne_empty_of_pySplit_cons ch f0 rest hsplit
    have hs0 : s ≠ 0 := by omega
    have hlen := file_read_all_of_big f s hbig
    simp [afrLoop, hsplit, hint, hch, hs0, hlen, hbig]
  · have hch := ne_empty_of_pySplit_cons ch2 g0 (uri :: rest2) hsplit2
    have hs0 : s2 ≠ 0 := by omega
    have hlen := file_read_all_of_big g s2 hbig2
    simp [uprLoop, hsplit2, hint2, hch, hs0, hlen, hbig2]

theorem c2_truncated_chunk_witness :
    pySplit "5" = ["5"] ∧ pyInt "5" = some 5
    ∧ ((("5\nabc".data.length - 2 : Nat) : Int) < 5)
    ∧ pySplit "3 /a" = ["3", "/a"] ∧ pyInt "3" = some 3
    ∧ ((("3 /a\nxy".data.length - 5 : Nat) : Int) < 3)
    ∧ afrLoop 1 ⟨"5\nabc".data, 2⟩ "5" = [.errTrunc 3 5]
    ∧ uprLoop 1 "1.1" [] ⟨"3 /a\nxy".data, 5⟩ "3 /a" = [.errTrunc 2 3] := by
  refine ⟨by decide, by decide, by decide, by decide, by decide, by decide, ?_, ?_⟩
  · exact (c2_truncated_chunk 0 ⟨"5\nabc".data, 2⟩ "5" "5" [] 5 (by decide) (by decide)
      (by decide) 0 "1.1" [] ⟨"3 /a\nxy".data, 5⟩ "3 /a" "3" "/a" [] 3
      (by decide) (by decide) (by decide)).1
  · exact (c2_truncated_chunk 0 ⟨"5\nabc".data, 2⟩ "5" "5" [] 5 (by decide) (by decide)
      (by decide) 0 "1.1" [] ⟨"3 /a\nxy".data, 5⟩ "3 /a" "3" "/a" [] 3
      (by decide) (by decide) (by decide)).2

/-- C3 counterexample: the header `"-1"` does *not* parse as a
non-negative integer, yet `AmmoFileReader` raises no error for it:
Python 2 `int("-1")` succeeds, `-1 != 0`, and `file.read(-1)` reads the
whole remainder, so the reader happily yields the rest of the file as a
record (here `"XY"`), restarts, and never raises. -/
theorem c3_counterexample :
    parsesAsNonNegInt "-1" = false
    ∧ pySplit "-1" = ["-1"]
    ∧ afrTrace "-1\nXY".data 1 = [.yield "XY" none, .incLoop, .setAfPos 3]
    ∧ recordsOf (afrTrace "-1\nXY".data 1) = [("XY", none)] := by decide

/-- C3 amended: a non-empty chunk header whose first
whitespace-separated field does not parse as a Python *integer* at all
(or which has no fields) makes `AmmoFileReader` raise the fatal
`AmmoFileError` carrying the current byte offset (`tell()`), the raw
header text, and the underlying `ValueError`/`IndexError`; the trace
ends with that error alone, so no record is emitted for the header.
(Fields that parse as *negative* integers are accepted: `read(n)` with
negative `n` reads the remainder of the file — see the counterexample.) -/
theorem c3_amended_parse_error (fuel : Nat) (f : File) (ch : String) (hch : ch ≠ "") :
    (pySplit ch = [] → afrLoop (fuel + 1) f ch = [.errParse f.tell ch .indexError])
    ∧ ∀ f0 rest, pySplit ch = f0 :: rest → pyInt f0 = none →
        afrLoop (fuel + 1) f ch = [.errParse f.tell ch (.valueError f0)] := by
  constructor
  · intro hsplit
    simp [afrLoop, hsplit, hch]
  · intro f0 rest hsplit hint
    simp [afrLoop, hsplit, hint, hch]

theorem c3_amended_parse_error_witness :
    ("zz" : String) ≠ "" ∧ pySplit "zz" = ["zz"] ∧ pyInt "zz" = none
    ∧ afrLoop 1 ⟨"zz\nabc".data, 3⟩ "zz" =
        [.errParse (File.tell ⟨"zz\nabc".data, 3⟩) "zz" (.valueError "zz")] := by
  refine ⟨by decide, by decide, by decide, ?_⟩
  exact (c3_amended_parse_error 0 ⟨"zz\nabc".data, 3⟩ "zz" (by decide)).2 "zz" []
    (by decide) (by decide)

/-! ### C7: UriReader accumulated headers -/

theorem uriLineStep_hs_mem (ver : String) (hs : List String) (l h : String)
    (hh : h ∈ hs) : h ∈ (uriLineStep ver hs l).1 := by
  unfold uriLineStep
  split
  · exact pySetAdd_mem_of_mem _ _ _ hh
  · split
    · exact hh
    · exact hh

theorem make_get_headers (uri : String) (hs : List String) (ver : String) :
    (HttpAmmo.make uri hs "GET" ver "").headers = pySetOfList hs := by
  simp [HttpAmmo.make]

theorem uriLineStep_records_mem (ver : String) (hs : List String) (l h : String)
    (hh : h ∈ hs) : ∀ a ∈ (uriLineStep ver hs l).2, h ∈ a.headers := by
  unfold uriLineStep
  split
  · intro a ha
    cases ha
  · split
    · intro a ha
      rcases List.mem_singleton.mp ha with rfl
      rw [make_get_headers]
      exact mem_pySetOfList hs h hh
    · intro a ha
      cases ha

theorem uriPass_hs_mem (ver : String) (lines : List String) :
    ∀ hs h, h ∈ hs → h ∈ (uriPass ver hs lines).1 := by
  induction lines with
  | nil => intro hs h hh; exact hh
  | cons l ls ih =>
    intro hs h hh
    exact ih _ h (uriLineStep_hs_mem ver hs l h hh)

theorem uriPass_records_mem (ver : String) (lines : List String) :
    ∀ hs h, h ∈ hs → ∀ a ∈ (uriPass ver hs lines).2, h ∈ a.headers := by
  induction lines with
  | nil =>
    intro hs h _ a ha
    cases ha
  | cons l ls ih =>
    intro hs h hh a ha
    rcases List.mem_append.mp ha with ha | ha
    · exact uriLineStep_records_mem ver hs l h hh a ha
    · exact ih _ h (uriLineStep_hs_mem ver hs l h hh) a ha

theorem uriPass_append (ver : String) (xs ys : List String) :
    ∀ hs, uriPass ver hs (xs ++ ys) =
      ((uriPass ver (uriPass ver hs xs).1 ys).1,
        (uriPass ver hs xs).2 ++ (uriPass ver (uriPass ver hs xs).1 ys).2) := by
  induction xs with
  | nil =>
    intro hs
    simp [uriPass]
  | cons l ls ih =>
    intro hs
    simp only [List.cons_append, uriPass, List.append_eq]
    rw [ih (uriLineStep ver hs l).1]
    simp [List.append_assoc]

theorem uriReaderGo_records_mem (ver : String) (lines : List String) :
    ∀ n hs h, h ∈ hs → ∀ a ∈ uriReaderGo ver n hs lines, h ∈ a.headers := by
  intro n
  induction n with
  | zero =>
    intro hs h _ a ha
    cases ha
  | succ n ih =>
    intro hs h hh a ha
    rcases List.mem_append.mp (by simpa [uriReaderGo] using ha) with ha | ha
    · exact uriPass_records_mem ver lines hs h hh a ha
    · exact ih _ h (uriPass_hs_mem ver lines hs h hh) a ha

/-- C7: on the concrete input `"[X: 1]\nfoo\n[Y: 2]\nbar\n"` the
`UriReader` yields GET records for `foo` then `bar`, and the third pull
(after the end-of-input restart) carries *both* headers `X: 1` and
`Y: 2`; in general the accumulated header set only grows — a header
added by a bracket line applies to every record rendered after it in
the same pass, to all later passes (the set is not reset on restart),
and survives to the end of every pass. -/
theorem c7_headers_persist :
    uriReaderRecords "[X: 1]\nfoo\n[Y: 2]\nbar\n".data "1.1" [] 2 =
      [("GET foo HTTP/1.1\r\nX: 1\r\n\r\n", none),
       ("GET bar HTTP/1.1\r\nX: 1\r\nY: 2\r\n\r\n", none),
       ("GET foo HTTP/1.1\r\nX: 1\r\nY: 2\r\n\r\n", none),
       ("GET bar HTTP/1.1\r\nX: 1\r\nY: 2\r\n\r\n", none)]
    ∧ (uriReaderAmmos "[X: 1]\nfoo\n[Y: 2]\nbar\n".data "1.1" [] 2).map HttpAmmo.headers =
      [["X: 1"], ["X: 1", "Y: 2"], ["X: 1", "Y: 2"], ["X: 1", "Y: 2"]]
    ∧ (∀ ver hs pre b post, pyStartsWith b "[" = true →
        ∀ a ∈ (uriPass ver (uriPass ver hs (pre ++ [b])).1 post).2,
          pyStrip brStripSet b ∈ a.headers)
    ∧ (∀ ver hs lines n h, h ∈ hs → ∀ a ∈ uriReaderGo ver n hs lines, h ∈ a.headers)
    ∧ (∀ ver hs pre b post, pyStartsWith b "[" = true →
        pyStrip brStripSet b ∈ (uriPass ver hs (pre ++ b :: post)).1) := by
  refine ⟨by decide, by decide, ?_, ?_, ?_⟩
  · intro ver hs pre b post hb a ha
    refine uriPass_records_mem ver post _ _ ?_ a ha
    rw [uriPass_append]
    simp only [uriPass, uriLineStep, if_pos hb]
    exact pySetAdd_mem_self _ _
  · intro ver hs lines n h hh a ha
    exact uriReaderGo_records_mem ver lines n hs h hh a ha
  · intro ver hs pre b post hb
    have : pre ++ b :: post = (pre ++ [b]) ++ post := by simp
    rw [this, uriPass_append]
    refine uriPass_hs_mem ver post _ _ ?_
    rw [uriPass_append]
    simp only [uriPass, uriLineStep, if_pos hb]
    exact pySetAdd_mem_self _ _

theorem c7_headers_persist_witness :
    pyStartsWith "[K: 9]" "[" = true
    ∧ ∀ a ∈ (uriPass "1.1" (uriPass "1.1" [] (["u\n"] ++ ["[K: 9]"])).1 ["v\n"]).2,
        pyStrip brStripSet "[K: 9]" ∈ a.headers :=
  ⟨by decide, c7_headers_persist.2.2.1 "1.1" [] ["u\n"] "[K: 9]" ["v\n"] (by decide)⟩

/-! ### C8: SlowLogReader trailing buffer -/

theorem slowLinesEv_append (xs ys : List String) :
    ∀ pos req, slowLinesEv pos req (xs ++ ys) =
      ((slowLinesEv pos req xs).1
         ++ (slowLinesEv (pos + linesLen xs) (slowLinesEv pos req xs).2 ys).1,
       (slowLinesEv (pos + linesLen xs) (slowLinesEv pos req xs).2 ys).2) := by
  induction xs with
  | nil =>
    intro pos req
    simp [slowLinesEv, linesLen]
  | cons l ls ih =>
    intro pos req
    by_cases hl : pyStartsWith l "#" = true
    · by_cases hr : req = ""
      · simp [slowLinesEv, hl, hr, ih, linesLen, Nat.add_assoc]
      · simp [slowLinesEv, hl, hr, ih, linesLen, Nat.add_assoc]
    · simp [slowLinesEv, hl, ih, linesLen, Nat.add_assoc]

theorem recordsOf_cons_setAfPos (n : Nat) (t : List Ev) :
    recordsOf (.setAfPos n :: t) = recordsOf t := rfl

theorem recordsOf_append (a b : List Ev) :
    recordsOf (a ++ b) = recordsOf a ++ recordsOf b := List.filterMap_append a b _

theorem slowLinesEv_no_comment (ys : List String)
    (hys : ∀ l ∈ ys, pyStartsWith l "#" = false) :
    ∀ pos req, recordsOf (slowLinesEv pos req ys).1 = []
      ∧ (slowLinesEv pos req ys).2 = req ++ concatLines ys := by
  induction ys with
  | nil =>
    intro pos req
    simp [slowLinesEv, recordsOf, concatLines]
  | cons l ls ih =>
    intro pos req
    have hl : pyStartsWith l "#" = false := hys l (by simp)
    have hls : ∀ l ∈ ls, pyStartsWith l "#" = false := fun x hx => hys x (by simp [hx])
    simp only [slowLinesEv, hl, Bool.false_eq_true, if_false]
    obtain ⟨h1, h2⟩ := ih hls (pos + l.length) (req ++ l)
    refine ⟨?_, ?_⟩
    · rw [recordsOf_cons_setAfPos, h1]
    · rw [h2, concatLines]
      simp [String.append_assoc]

theorem slowCarryIter_shift (data : List Char) (req : String) :
    ∀ n, slowCarryIter data req (n + 1) =
      slowCarryIter data (slowLinesEv 0 req (fileLines data)).2 n := by
  intro n
  induction n with
  | zero => rfl
  | succ n ih =>
    show (slowLinesEv 0 (slowCarryIter data req (n + 1)) (fileLines data)).2 = _
    rw [ih]
    rfl

theorem slowLogGo_snoc (data : List Char) :
    ∀ n req, slowLogGo (n + 1) req data =
      slowLogGo n req data
        ++ ((slowLinesEv 0 (slowCarryIter data req n) (fileLines data)).1
          ++ [.setAfPos 0, .incLoop]) := by
  intro n
  induction n with
  | zero =>
    intro req
    simp [slowLogGo, slowCarryIter]
  | succ n ih =>
    intro req
    have lhs : slowLogGo (n + 1 + 1) req data =
        (slowLinesEv 0 req (fileLines data)).1 ++ .setAfPos 0 :: .incLoop ::
          slowLogGo (n + 1) (slowLinesEv 0 req (fileLines data)).2 data := rfl
    rw [lhs, ih (slowLinesEv 0 req (fileLines data)).2, ← slowCarryIter_shift data req n]
    have rhs : slowLogGo (n + 1) req data =
        (slowLinesEv 0 req (fileLines data)).1 ++ .setAfPos 0 :: .incLoop ::
          slowLogGo n (slowLinesEv 0 req (fileLines data)).2 data := rfl
    rw [rhs]
    simp

theorem slowLogCarry_eq_iter (data : List Char) :
    ∀ n, slowLogCarry data n = slowCarryIter data "" n := by
  intro n
  induction n with
  | zero => rfl
  | succ n ih =>
    show (slowLinesEv 0 (slowLogCarry data n) (fileLines data)).2 = _
    rw [ih]
    rfl

/-- C8 counterexample: over the file `"#c\nA\n"` the trailing buffered
request `"A\n"` (never flushed by a trailing comment line) is *not*
dropped: pass 1 emits nothing and carries `"A\n"` over the restart, and
the comment line at the top of pass 2 flushes it, so the reader *does*
emit it as a record. -/
theorem c8_counterexample :
    recordsOf (slowLogTrace "#c\nA\n".data 1) = []
    ∧ slowLogCarry "#c\nA\n".data 1 = "A\n"
    ∧ recordsOf (slowLogTrace "#c\nA\n".data 2) = [("A\n", none)] := by decide

/-- C8 amended: a trailing buffered request that is not followed by a
comment line before end-of-input is not emitted *during that pass* —
the lines after the last comment line contribute no records and simply
accumulate onto the carried buffer — and the reader then restarts from
the beginning of the file (publishing `af_position = 0` and incrementing
the loop count) with the buffer *retained*, not dropped: it persists as
the initial accumulation state of the next pass (and can therefore be
flushed into a later record, as the counterexample shows). -/
theorem c8_amended_buffer_carried (pos : Nat) (req : String) (xs ys : List String)
    (hys : ∀ l ∈ ys, pyStartsWith l "#" = false)
    (data : List Char) (n : Nat) :
    recordsOf (slowLinesEv pos req (xs ++ ys)).1 = recordsOf (slowLinesEv pos req xs).1
    ∧ (slowLinesEv pos req (xs ++ ys)).2 = (slowLinesEv pos req xs).2 ++ concatLines ys
    ∧ slowLogTrace data (n + 1) =
        slowLogTrace data n
          ++ ((slowLinesEv 0 (slowLogCarry data n) (fileLines data)).1
            ++ [.setAfPos 0, .incLoop]) := by
  obtain ⟨h1, h2⟩ := slowLinesEv_no_comment ys hys (pos + linesLen xs) (slowLinesEv pos req xs).2
  refine ⟨?_, ?_, ?_⟩
  · rw [slowLinesEv_append, recordsOf_append, h1, List.append_nil]
  · rw [slowLinesEv_append]
    exact h2
  · rw [slowLogCarry_eq_iter]
    exact slowLogGo_snoc data n ""

theorem c8_amended_buffer_carried_witness :
    (∀ l ∈ ["A\n", "B\n"], pyStartsWith l "#" = false)
    ∧ recordsOf (slowLinesEv 0 "q" (["#z\n"] ++ ["A\n", "B\n"])).1 =
        recordsOf (slowLinesEv 0 "q" ["#z\n"]).1
    ∧ (slowLinesEv 0 "q" (["#z\n"] ++ ["A\n", "B\n"])).2 =
        (slowLinesEv 0 "q" ["#z\n"]).2 ++ concatLines ["A\n", "B\n"]
    ∧ slowLogTrace "#c\nA\n".data 2 =
        slowLogTrace "#c\nA\n".data 1
          ++ ((slowLinesEv 0 (slowLogCarry "#c\nA\n".data 1) (fileLines "#c\nA\n".data)).1
            ++ [.setAfPos 0, .incLoop]) := by
  have h := c8_amended_buffer_carried 0 "q" ["#z\n"] ["A\n", "B\n"] (by decide)
    "#c\nA\n".data 1
  exact ⟨by decide, h.1, h.2.1, h.2.2⟩

/-! ### File primitive lemmas -/

theorem takeLine_append (content : List Char) (rest : List Char) (h : '\n' ∉ content) :
    takeLine (content ++ '\n' :: rest) = content ++ ['\n'] := by
  induction content with
  | nil => simp [takeLine]
  | cons a t ih =>
    have ha : a ≠ '\n' := fun hc => h (by simp [hc])
    have ht : '\n' ∉ t := fun hc => h (by simp [hc])
    simp [takeLine, ha, ih ht]

theorem readline_line (data : List Char) (pos : Nat) (content rest : List Char)
    (hdrop : data.drop pos = content ++ '\n' :: rest) (h : '\n' ∉ content) :
    File.readline ⟨data, pos⟩ =
      (String.mk (content ++ ['\n']), ⟨data, pos + (content.length + 1)⟩) := by
  unfold File.readline
  simp only [hdrop, takeLine_append content rest h]
  simp [string_length_mk]

theorem readline_eof (data : List Char) (pos : Nat) (h : data.drop pos = []) :
    File.readline ⟨data, pos⟩ = ("", ⟨data, pos⟩) := by
  unfold File.readline
  simp [h, takeLine]

theorem file_read_exact (data : List Char) (pos : Nat) (body rest : List Char)
    (hdrop : data.drop pos = body ++ rest) :
    File.read ⟨data, pos⟩ (body.length : Int) =
      (String.mk body, ⟨data, pos + body.length⟩) := by
  unfold File.read
  have h0 : ¬ ((body.length : Int) < 0) := by omega
  simp only [h0, if_neg, if_false, hdrop, Int.toNat_natCast, List.take_left]

/-! ### Strip lemmas -/

theorem dropWhile_eq_self_of_head (p : Char → Bool) (l : List Char)
    (h : ∀ c, l.head? = some c → p c = false) : l.dropWhile p = l := by
  cases l with
  | nil => rfl
  | cons a t =>
    have := h a rfl
    simp [List.dropWhile_cons, this]

theorem stripChars_all (p : Char → Bool) (l : List Char) (h : ∀ c ∈ l, p c = true) :
    stripChars p l = [] := by
  unfold stripChars
  rw [List.dropWhile_eq_nil_iff.mpr h]
  simp

theorem stripChars_line (p : Char → Bool) (l : List Char) (hne : l ≠ [])
    (hhead : ∀ c, l.head? = some c → p c = false)
    (hlast : ∀ c, l.getLast? = some c → p c = false)
    (hp : p '\n' = true) :
    stripChars p (l ++ ['\n']) = l := by
  cases l with
  | nil => exact absurd rfl hne
  | cons a t =>
    unfold stripChars
    have ha : p a = false := hhead a rfl
    have h1 : (a :: t ++ ['\n']).dropWhile p = a :: t ++ ['\n'] := by
      simp [List.dropWhile_cons, ha]
    rw [h1]
    have h2 : (a :: t ++ ['\n']).reverse = '\n' :: (a :: t).reverse := by
      simp
    rw [h2, List.dropWhile_cons, hp]
    rw [if_pos rfl]
    have h3 : (a :: t).reverse.dropWhile p = (a :: t).reverse := by
      refine dropWhile_eq_self_of_head p _ ?_
      intro c hc
      rw [List.head?_reverse] at hc
      exact hlast c hc
    rw [h3, List.reverse_reverse]

theorem crlfSet_nl : (fun c => (['\r', '\n'] : List Char).contains c) '\n' = true := by decide

theorem stripCRLF_blank (k : Nat) :
    stripCRLF (String.mk (List.replicate k '\r' ++ ['\n'])) = "" := by
  unfold stripCRLF pyStrip
  rw [stripChars_all]
  intro c hc
  rcases List.mem_append.mp hc with hc | hc
  · rw [(List.mem_replicate.mp hc).2]
    decide
  · rw [List.mem_singleton.mp hc]
    decide

theorem not_crlf_of_not_pyspace (c : Char) (h : isPySpace c = false) :
    (fun c => (['\r', '\n'] : List Char).contains c) c = false := by
  have hr : c ≠ '\r' := by
    intro hc
    subst hc
    simp [isPySpace] at h
  have hn : c ≠ '\n' := by
    intro hc
    subst hc
    simp [isPySpace] at h
  simp only [List.contains, List.elem_eq_mem, decide_eq_false_iff_not]
  simp [hr, hn]

theorem stripCRLF_clean_line (l : List Char) (hne : l ≠ [])
    (hhead : ∀ c, l.head? = some c → isPySpace c = false)
    (hlast : ∀ c, l.getLast? = some c → isPySpace c = false) :
    stripCRLF (String.mk (l ++ ['\n'])) = String.mk l := by
  unfold stripCRLF pyStrip
  rw [stripChars_line _ _ hne]
  · intro c hc
    exact not_crlf_of_not_pyspace c (hhead c hc)
  · intro c hc
    exact not_crlf_of_not_pyspace c (hlast c hc)
  · decide

/-! ### pySplit shape lemmas -/

theorem pySplitGo_token (w : List Char) (hw : ∀ c ∈ w, isPySpace c = false) :
    ∀ rest acc, pySplitGo (w ++ rest) acc = pySplitGo rest (w.reverse ++ acc) := by
  induction w with
  | nil => intro rest acc; simp
  | cons a t ih =>
    intro rest acc
    have ha : isPySpace a = false := hw a (by simp)
    have ht : ∀ c ∈ t, isPySpace c = false := fun c hc => hw c (by simp [hc])
    simp only [List.cons_append, pySplitGo, ha, Bool.false_eq_true, if_false, List.append_eq]
    rw [ih ht rest (a :: acc)]
    simp

theorem pySplitGo_nil_token (u : List Char) (hne : u ≠ [])
    (hu : ∀ c ∈ u, isPySpace c = false) :
    pySplitGo u [] = [String.mk u] := by
  have h := pySplitGo_token u hu [] []
  rw [List.append_nil] at h
  rw [h]
  have : (u.reverse ++ []).isEmpty = false := by
    simp [List.isEmpty_iff, hne]
  simp only [pySplitGo, this, Bool.false_eq_true, if_false]
  simp

theorem pySplit_one (u : String) (hne : u.data ≠ [])
    (hu : ∀ c ∈ u.data, isPySpace c = false) : pySplit u = [u] := by
  unfold pySplit
  rw [pySplitGo_nil_token u.data hne hu]

theorem pySplitGo_two (u v : List Char) (hun : u ≠ []) (hvn : v ≠ [])
    (hu : ∀ c ∈ u, isPySpace c = false) (hv : ∀ c ∈ v, isPySpace c = false) :
    pySplitGo (u ++ ' ' :: v) [] = [String.mk u, String.mk v] := by
  rw [pySplitGo_token u hu (' ' :: v) []]
  have hsp : isPySpace ' ' = true := by decide
  have hacc : (u.reverse ++ ([] : List Char)).isEmpty = false := by
    simp [List.isEmpty_iff, hun]
  simp only [pySplitGo, hsp, if_pos, hacc, Bool.false_eq_true, if_false, if_true]
  rw [pySplitGo_nil_token v hvn hv]
  simp

theorem pySplitGo_three (u v w : List Char) (hun : u ≠ []) (hvn : v ≠ []) (hwn : w ≠ [])
    (hu : ∀ c ∈ u, isPySpace c = false) (hv : ∀ c ∈ v, isPySpace c = false)
    (hw : ∀ c ∈ w, isPySpace c = false) :
    pySplitGo (u ++ ' ' :: (v ++ ' ' :: w)) [] =
      [String.mk u, String.mk v, String.mk w] := by
  rw [pySplitGo_token u hu (' ' :: (v ++ ' ' :: w)) []]
  have hsp : isPySpace ' ' = true := by decide
  have hacc : (u.reverse ++ ([] : List Char)).isEmpty = false := by
    simp [List.isEmpty_iff, hun]
  simp only [pySplitGo, hsp, if_pos, hacc, Bool.false_eq_true, if_false, if_true]
  rw [pySplitGo_two v w hvn hwn hv hw]
  simp

/-! ### read_chunk_header specification -/

theorem padBytesOf_cons (k : Nat) (ps : List Nat) :
    padBytesOf (k :: ps) = (List.replicate k '\r' ++ ['\n']) ++ padBytesOf ps := by
  simp [padBytesOf]

theorem padBytesOf_length_ge (pads : List Nat) :
    pads.length ≤ (padBytesOf pads).length := by
  induction pads with
  | nil => simp [padBytesOf]
  | cons k ps ih =>
    rw [padBytesOf_cons]
    simp only [List.length_append, List.length_replicate, List.length_cons,
      List.length_singleton]
    omega

theorem newline_not_mem_replicate_cr (k : Nat) : '\n' ∉ List.replicate k '\r' := by
  intro h
  have := (List.mem_replicate.mp h).2
  cases this

theorem rchAux_spec (data : List Char) :
    ∀ (pads : List Nat) (fuel pos : Nat) (h : String) (rest : List Char),
      pads.length + 1 ≤ fuel →
      data.drop pos = padBytesOf pads ++ (h.data ++ '\n' :: rest) →
      '\n' ∉ h.data → h ≠ "" →
      stripCRLF (String.mk (h.data ++ ['\n'])) = h →
      rchAux fuel ⟨data, pos⟩ =
        (h, ⟨data, pos + ((padBytesOf pads).length + (h.data.length + 1))⟩) := by
  intro pads
  induction pads with
  | nil =>
    intro fuel pos h rest hfuel hdrop hnl hne hstrip
    match fuel, hfuel with
    | fuel + 1, _ =>
      rw [padBytesOf] at hdrop
      simp only [List.map_nil, List.flatten_nil, List.nil_append] at hdrop
      have hline := readline_line data pos h.data rest hdrop hnl
      have hlne : String.mk (h.data ++ ['\n']) ≠ "" := by
        intro hcon
        have := congrArg String.data hcon
        simp at this
      simp only [rchAux, hline, hlne, Bool.false_eq_true, if_false, hstrip, hne,
        padBytesOf, List.map_nil, List.flatten_nil, List.length_nil]
      simp [hne]
  | cons k ps ih =>
    intro fuel pos h rest hfuel hdrop hnl hne hstrip
    match fuel, hfuel with
    | fuel + 1, hfuel =>
      rw [padBytesOf_cons, List.append_assoc] at hdrop
      have hdrop2 : data.drop pos =
          List.replicate k '\r' ++ '\n' :: (padBytesOf ps ++ (h.data ++ '\n' :: rest)) := by
        rw [hdrop]
        simp
      have hline := readline_line data pos (List.replicate k '\r') _ hdrop2
        (newline_not_mem_replicate_cr k)
      simp only [List.length_replicate] at hline
      have hlne : String.mk (List.replicate k '\r' ++ ['\n']) ≠ "" := by
        intro hcon
        have := congrArg String.data hcon
        simp at this
      have hdropnext : data.drop (pos + (k + 1)) = padBytesOf ps ++ (h.data ++ '\n' :: rest) := by
        have hdd : data.drop (pos + (k + 1)) = (data.drop pos).drop (k + 1) := by
          rw [List.drop_drop]
        rw [hdd, hdrop]
        refine List.drop_left' ?_
        simp
      have hfuel2 : ps.length + 1 ≤ fuel := by
        simp only [List.length_cons] at hfuel
        omega
      have hres := ih fuel (pos + (k + 1)) h rest hfuel2 hdropnext hnl hne hstrip
      simp only [rchAux, hline, hlne, Bool.false_eq_true, if_false, stripCRLF_blank k,
        if_pos]
      rw [hres, padBytesOf_cons]
      simp only [Prod.mk.injEq, File.mk.injEq, List.length_append, List.length_replicate,
        List.length_cons, List.length_nil, true_and]
      omega

theorem read_chunk_header_spec (data : List Char) (pads : List Nat) (pos : Nat)
    (h : String) (rest : List Char)
    (hdrop : data.drop pos = padBytesOf pads ++ (h.data ++ '\n' :: rest))
    (hnl : '\n' ∉ h.data) (hne : h ≠ "")
    (hstrip : stripCRLF (String.mk (h.data ++ ['\n'])) = h) :
    read_chunk_header ⟨data, pos⟩ =
      (h, ⟨data, pos + ((padBytesOf pads).length + (h.data.length + 1))⟩) := by
  unfold read_chunk_header
  refine rchAux_spec data pads (data.length + 1) pos h rest ?_ hdrop hnl hne hstrip
  have h1 : (data.drop pos).length ≤ data.length := by
    rw [List.length_drop]
    omega
  have h2 : (data.drop pos).length = (padBytesOf pads).length + (h.data.length + 1 + rest.length) := by
    rw [hdrop]
    simp only [List.length_append, List.length_cons]
    omega
  have h3 := padBytesOf_length_ge pads
  omega

theorem read_chunk_header_eof (data : List Char) (pos : Nat) (h : data.drop pos = []) :
    read_chunk_header ⟨data, pos⟩ = ("", ⟨data, pos⟩) := by
  unfold read_chunk_header
  have hline := readline_eof data pos h
  simp only [rchAux, hline, if_pos]

/-! ### Chunk well-formedness facts -/

theorem mem_of_getLast_opt (l : List Char) (a : Char) (h : l.getLast? = some a) : a ∈ l := by
  have hx : a ∈ l.getLast? := h
  obtain ⟨hne, heq⟩ := List.mem_getLast?_eq_getLast hx
  rw [heq]
  exact List.getLast_mem hne

theorem chunk_wf_parts (c : Chunk) (h : c.wfb = true) :
    pyInt c.sizeStr = some (c.body.length : Int)
    ∧ c.body ≠ []
    ∧ (∀ ch ∈ c.sizeStr.data, isPySpace ch = false)
    ∧ c.sizeStr.data ≠ []
    ∧ (∀ m, c.marker = some m → m.data ≠ [] ∧ ∀ ch ∈ m.data, isPySpace ch = false) := by
  unfold Chunk.wfb at h
  cases hm : c.marker with
  | none =>
    rw [hm] at h
    simp only [Bool.and_eq_true, beq_iff_eq, Bool.not_eq_true', List.all_eq_true,
      List.isEmpty_eq_false, List.isEmpty_iff, Bool.not_eq_true] at h
    obtain ⟨⟨⟨⟨⟨h1, h2⟩, h3⟩, h4⟩, h5⟩, -⟩ := h
    exact ⟨h1, h2, h4, h5, fun m hm2 => Option.noConfusion hm2⟩
  | some m =>
    rw [hm] at h
    simp only [Bool.and_eq_true, beq_iff_eq, Bool.not_eq_true', List.all_eq_true,
      List.isEmpty_eq_false, List.isEmpty_iff, Bool.not_eq_true] at h
    obtain ⟨⟨⟨⟨⟨h1, h2⟩, h3⟩, h4⟩, h5⟩, h6, h7⟩ := h
    refine ⟨h1, h2, h4, h5, fun m2 hm2 => ?_⟩
    cases hm2
    exact ⟨h6, h7⟩

theorem chunk_hdr_data (c : Chunk) :
    c.hdrStr.data = c.sizeStr.data
      ++ (match c.marker with | none => [] | some m => ' ' :: m.data) := by
  unfold Chunk.hdrStr
  cases c.marker with
  | none => simp [String.data_append]
  | some m => simp [String.data_append]

theorem string_data_ne_nil_of_ne_empty (s : String) (h : s ≠ "") : s.data ≠ [] := by
  intro hd
  apply h
  have hs : s = String.mk s.data := rfl
  rw [hs, hd]

theorem chunk_hdr_ne (c : Chunk) (h : c.wfb = true) : c.hdrStr ≠ "" := by
  obtain ⟨_, _, _, h4, _⟩ := chunk_wf_parts c h
  intro hc
  have := congrArg String.data hc
  rw [chunk_hdr_data] at this
  simp at this
  exact h4 this.1

theorem nl_pyspace : isPySpace '\n' = true := by decide

theorem chunk_hdr_no_nl (c : Chunk) (h : c.wfb = true) : '\n' ∉ c.hdrStr.data := by
  obtain ⟨_, _, h3, _, h5⟩ := chunk_wf_parts c h
  rw [chunk_hdr_data]
  intro hmem
  rcases List.mem_append.mp hmem with hm | hm
  · have := h3 '\n' hm
    rw [nl_pyspace] at this
    cases this
  · revert hm
    cases hmk : c.marker with
    | none => intro hm; cases hm
    | some m =>
      intro hm
      rcases List.mem_cons.mp hm with hm2 | hm2
      · cases hm2
      · have := (h5 m hmk).2 '\n' hm2
        rw [nl_pyspace] at this
        cases this

theorem chunk_hdr_head (c : Chunk) (h : c.wfb = true) :
    ∀ ch, c.hdrStr.data.head? = some ch → isPySpace ch = false := by
  obtain ⟨_, _, h3, h4, _⟩ := chunk_wf_parts c h
  intro ch hch
  rw [chunk_hdr_data] at hch
  obtain ⟨a, t, hat⟩ := List.exists_cons_of_ne_nil h4
  rw [hat] at hch
  simp only [List.cons_append, List.head?_cons, Option.some.injEq] at hch
  rw [← hch]
  exact h3 a (by rw [hat]; simp)

theorem chunk_hdr_last (c : Chunk) (h : c.wfb = true) :
    ∀ ch, c.hdrStr.data.getLast? = some ch → isPySpace ch = false := by
  obtain ⟨_, _, h3, h4, h5⟩ := chunk_wf_parts c h
  intro ch hch
  rw [chunk_hdr_data] at hch
  revert hch
  cases hmk : c.marker with
  | none =>
    intro hch
    rw [List.append_nil] at hch
    exact h3 ch (mem_of_getLast_opt _ ch hch)
  | some m =>
    intro hch
    obtain ⟨hm1, hm2⟩ := h5 m hmk
    rw [List.getLast?_append_of_ne_nil _ (by simp)] at hch
    have : (' ' :: m.data).getLast? = m.data.getLast? := by
      obtain ⟨a, t, hat⟩ := List.exists_cons_of_ne_nil hm1
      rw [hat]
      rfl
    rw [this] at hch
    exact hm2 ch (mem_of_getLast_opt _ ch hch)

theorem chunk_hdr_strip (c : Chunk) (h : c.wfb = true) :
    stripCRLF (String.mk (c.hdrStr.data ++ ['\n'])) = c.hdrStr := by
  have h1 : c.hdrStr.data ≠ [] :=
    string_data_ne_nil_of_ne_empty _ (chunk_hdr_ne c h)
  rw [stripCRLF_clean_line _ h1 (chunk_hdr_head c h) (chunk_hdr_last c h)]

theorem chunk_hdr_split (c : Chunk) (h : c.wfb = true) :
    pySplit c.hdrStr =
      c.sizeStr :: (match c.marker with | none => [] | some m => [m]) := by
  obtain ⟨_, _, h3, h4, h5⟩ := chunk_wf_parts c h
  unfold pySplit
  rw [chunk_hdr_data]
  cases hmk : c.marker with
  | none =>
    rw [List.append_nil, pySplitGo_nil_token _ h4 h3]
  | some m =>
    obtain ⟨hm1, hm2⟩ := h5 m hmk
    rw [pySplitGo_two _ _ h4 hm1 h3 hm2]

/-! ### AmmoFileReader over well-formed chunk files: closed form -/

theorem mkAmmoData_append (xs ys : List Chunk) :
    mkAmmoData (xs ++ ys) = mkAmmoData xs ++ mkAmmoData ys := by
  simp [mkAmmoData]

theorem mkAmmoData_cons (c : Chunk) (cs : List Chunk) :
    mkAmmoData (c :: cs) = c.bytes ++ mkAmmoData cs := by
  simp [mkAmmoData]

theorem chunk_bytes_decomp (c : Chunk) :
    c.bytes = c.padBytes ++ (c.hdrStr.data ++ '\n' :: c.body) := by
  unfold Chunk.bytes Chunk.headerBytes
  simp [List.append_assoc]

theorem marker_fields_head (c : Chunk) :
    (match c.marker with | none => ([] : List String) | some m => [m]).head? = c.marker := by
  cases c.marker <;> rfl

theorem afrLoop_eq_afrCycle (cs : List Chunk) (hwf : ∀ x ∈ cs, x.wfb = true) :
    ∀ fuel pre c suf, cs = pre ++ c :: suf →
      afrLoop fuel
        ⟨mkAmmoData cs, (mkAmmoData pre).length + c.padBytes.length + c.headerBytes.length⟩
        c.hdrStr
      = afrCycle cs fuel (mkAmmoData pre).length (c :: suf) := by
  intro fuel
  induction fuel with
  | zero => intro pre c suf hcs; rfl
  | succ fuel ih =>
    intro pre c suf hcs
    have hc : c ∈ cs := by rw [hcs]; simp
    have hcwf := hwf c hc
    obtain ⟨hint, hbody, hnosp, hszne, hmk⟩ := chunk_wf_parts c hcwf
    have hch : c.hdrStr ≠ "" := chunk_hdr_ne c hcwf
    have hsplit := chunk_hdr_split c hcwf
    have hdecomp : mkAmmoData cs = (mkAmmoData pre ++ c.padBytes ++ c.headerBytes)
        ++ (c.body ++ mkAmmoData suf) := by
      rw [hcs, mkAmmoData_append, mkAmmoData_cons]
      unfold Chunk.bytes
      simp [List.append_assoc]
    have hdrop : (mkAmmoData cs).drop
        ((mkAmmoData pre).length + c.padBytes.length + c.headerBytes.length)
        = c.body ++ mkAmmoData suf := by
      rw [hdecomp]
      refine List.drop_left' ?_
      simp only [List.length_append]
    have hread := file_read_exact (mkAmmoData cs)
      ((mkAmmoData pre).length + c.padBytes.length + c.headerBytes.length)
      c.body (mkAmmoData suf) hdrop
    have hsz0 : ¬ ((c.body.length : Int) = 0) := by
      have hb : c.body.length ≠ 0 := by
        intro h0
        exact hbody (List.eq_nil_of_length_eq_zero h0)
      omega
    have hnotrunc : ¬ (((String.mk c.body).length : Int) < (c.body.length : Int)) := by
      rw [string_length_mk]
      omega
    simp only [afrLoop, hch, ne_eq, not_false_iff, if_neg, hsplit, hint, hsz0, if_false,
      marker_fields_head, hread, hnotrunc]
    cases suf with
    | cons c2 suf2 =>
      have hc2wf := hwf c2 (by rw [hcs]; simp)
      have hdd : (mkAmmoData cs).drop
          ((mkAmmoData pre).length + c.padBytes.length + c.headerBytes.length + c.body.length)
          = mkAmmoData (c2 :: suf2) := by
        have h1 : (mkAmmoData cs).drop
            ((mkAmmoData pre).length + c.padBytes.length + c.headerBytes.length + c.body.length)
            = ((mkAmmoData cs).drop
                ((mkAmmoData pre).length + c.padBytes.length + c.headerBytes.length)).drop
                c.body.length := by
          rw [List.drop_drop]
        rw [h1, hdrop]
        exact List.drop_left c.body _
      have hdrop2 : (mkAmmoData cs).drop
          ((mkAmmoData pre).length + c.padBytes.length + c.headerBytes.length + c.body.length)
          = padBytesOf c2.padCRs ++ (c2.hdrStr.data ++ '\n' :: (c2.body ++ mkAmmoData suf2)) := by
        rw [hdd, mkAmmoData_cons, chunk_bytes_decomp]
        unfold Chunk.padBytes
        simp [List.append_assoc]
      have hrch := read_chunk_header_spec (mkAmmoData cs) c2.padCRs
        ((mkAmmoData pre).length + c.padBytes.length + c.headerBytes.length + c.body.length)
        c2.hdrStr (c2.body ++ mkAmmoData suf2) hdrop2
        (chunk_hdr_no_nl c2 hc2wf) (chunk_hdr_ne c2 hc2wf) (chunk_hdr_strip c2 hc2wf)
      have hc2ne := chunk_hdr_ne c2 hc2wf
      have hpos2 : (mkAmmoData pre).length + c.padBytes.length + c.headerBytes.length
            + c.body.length + ((padBytesOf c2.padCRs).length + (c2.hdrStr.data.length + 1))
          = (mkAmmoData (pre ++ [c])).length + c2.padBytes.length + c2.headerBytes.length := by
        rw [mkAmmoData_append, mkAmmoData_cons]
        unfold Chunk.bytes Chunk.headerBytes Chunk.padBytes
        simp only [List.length_append, mkAmmoData, List.map_nil, List.flatten_nil,
          List.length_nil, List.length_cons]
        omega
      have hcs2 : cs = (pre ++ [c]) ++ c2 :: suf2 := by
        rw [hcs]
        simp
      have hbase : (mkAmmoData (pre ++ [c])).length
          = (mkAmmoData pre).length + c.bytes.length := by
        rw [mkAmmoData_append, mkAmmoData_cons]
        simp [mkAmmoData]
      simp only [hrch, hc2ne, ne_eq, not_false_iff, if_neg, if_false, File.tell]
      rw [hpos2, ih (pre ++ [c]) c2 suf2 hcs2]
      show _ = afrCycle cs (fuel + 1) (mkAmmoData pre).length (c :: c2 :: suf2)
      simp only [afrCycle]
      rw [hbase]
    | nil =>
      obtain ⟨c0, cs0, hcs0⟩ : ∃ c0 cs0, cs = c0 :: cs0 := by
        cases cs with
        | nil =>
          exfalso
          have hlc := congrArg List.length hcs
          simp at hlc
        | cons a t => exact ⟨a, t, rfl⟩
      have hc0wf := hwf c0 (by rw [hcs0]; simp)
      have hlen : (mkAmmoData pre).length + c.padBytes.length + c.headerBytes.length
          + c.body.length = (mkAmmoData cs).length := by
        rw [hdecomp]
        simp only [List.length_append, mkAmmoData, List.map_nil, List.flatten_nil,
          List.length_nil]
        omega
      have heof : (mkAmmoData cs).drop
          ((mkAmmoData pre).length + c.padBytes.length + c.headerBytes.length + c.body.length)
          = [] := by
        rw [hlen]
        exact List.drop_length _
      have hrch1 := read_chunk_header_eof (mkAmmoData cs) _ heof
      have hdrop0 : (mkAmmoData cs).drop 0
          = padBytesOf c0.padCRs ++ (c0.hdrStr.data ++ '\n' :: (c0.body ++ mkAmmoData cs0)) := by
        rw [List.drop_zero, hcs0, mkAmmoData_cons, chunk_bytes_decomp]
        unfold Chunk.padBytes
        simp [List.append_assoc]
      have hrch0 := read_chunk_header_spec (mkAmmoData cs) c0.padCRs 0
        c0.hdrStr (c0.body ++ mkAmmoData cs0) hdrop0
        (chunk_hdr_no_nl c0 hc0wf) (chunk_hdr_ne c0 hc0wf) (chunk_hdr_strip c0 hc0wf)
      have hcsd : cs = [] ++ c0 :: cs0 := by rw [hcs0]; rfl
      have hih := ih [] c0 cs0 hcsd
      have hpos0 : 0 + ((padBytesOf c0.padCRs).length + (c0.hdrStr.data.length + 1))
          = (mkAmmoData ([] : List Chunk)).length + c0.padBytes.length
            + c0.headerBytes.length := by
        unfold Chunk.headerBytes Chunk.padBytes
        simp only [List.length_append, mkAmmoData, List.map_nil, List.flatten_nil,
          List.length_nil, List.length_cons]
        omega
      simp only [hrch1, if_pos, File.seek0, File.tell, hrch0]
      rw [hpos0, hih]
      show _ = afrCycle cs (fuel + 1) (mkAmmoData pre).length [c]
      simp only [afrCycle]
      rw [hcs0]
      show _ = Ev.yield (String.mk c.body) c.marker :: Ev.incLoop ::
        Ev.setAfPos (firstHdrPos (c0 :: cs0)) :: afrCycle (c0 :: cs0) fuel 0 (c0 :: cs0)
      simp [mkAmmoData, firstHdrPos]

theorem afrTrace_eq_afrCycle (cs : List Chunk) (hwf : ∀ x ∈ cs, x.wfb = true)
    (hne : cs ≠ []) (fuel : Nat) :
    afrTrace (mkAmmoData cs) fuel = afrCycle cs fuel 0 cs := by
  obtain ⟨c0, cs0, rfl⟩ := List.exists_cons_of_ne_nil hne
  unfold afrTrace
  have hc0wf := hwf c0 (by simp)
  have hdrop0 : (mkAmmoData (c0 :: cs0)).drop 0
      = padBytesOf c0.padCRs ++ (c0.hdrStr.data ++ '\n' :: (c0.body ++ mkAmmoData cs0)) := by
    rw [List.drop_zero, mkAmmoData_cons, chunk_bytes_decomp]
    unfold Chunk.padBytes
    simp [List.append_assoc]
  have hrch0 := read_chunk_header_spec (mkAmmoData (c0 :: cs0)) c0.padCRs 0
    c0.hdrStr (c0.body ++ mkAmmoData cs0) hdrop0
    (chunk_hdr_no_nl c0 hc0wf) (chunk_hdr_ne c0 hc0wf) (chunk_hdr_strip c0 hc0wf)
  simp only [hrch0]
  have hpos0 : 0 + ((padBytesOf c0.padCRs).length + (c0.hdrStr.data.length + 1))
      = (mkAmmoData ([] : List Chunk)).length + c0.padBytes.length
        + c0.headerBytes.length := by
    unfold Chunk.headerBytes Chunk.padBytes
    simp only [mkAmmoData, List.map_nil, List.flatten_nil, List.length_nil,
      List.length_append, List.length_cons]
    omega
  rw [hpos0, afrLoop_eq_afrCycle (c0 :: cs0) hwf fuel [] c0 cs0 rfl]
  congr 1

theorem recordsOf_cons_yield (p : String) (m : Option String) (t : List Ev) :
    recordsOf (.yield p m :: t) = (p, m) :: recordsOf t := rfl

theorem recordsOf_cons_incLoop (t : List Ev) :
    recordsOf (.incLoop :: t) = recordsOf t := rfl

theorem afrCycle_records_eq :
    ∀ fuel (cs₁ cs₂ : List Chunk) (b₁ b₂ : Nat) (suf₁ suf₂ : List Chunk),
      List.Forall₂ SameModuloPads cs₁ cs₂ →
      List.Forall₂ SameModuloPads suf₁ suf₂ →
      recordsOf (afrCycle cs₁ fuel b₁ suf₁) = recordsOf (afrCycle cs₂ fuel b₂ suf₂) := by
  intro fuel
  induction fuel with
  | zero => intros; rfl
  | succ fuel ih =>
    intro cs₁ cs₂ b₁ b₂ suf₁ suf₂ hcs hsuf
    cases hsuf with
    | nil => rfl
    | @cons c₁ c₂ t₁ t₂ hc hrest =>
      obtain ⟨hs, hm, hb⟩ := hc
      cases hrest with
      | nil =>
        simp only [afrCycle, recordsOf_cons_yield, recordsOf_cons_incLoop,
          recordsOf_cons_setAfPos, hb, hm]
        rw [ih cs₁ cs₂ 0 0 cs₁ cs₂ hcs hcs]
      | @cons d₁ d₂ u₁ u₂ hd hrest2 =>
        simp only [afrCycle, recordsOf_cons_yield, recordsOf_cons_setAfPos, hb, hm]
        rw [ih cs₁ cs₂ (b₁ + c₁.bytes.length) (b₂ + c₂.bytes.length) (d₁ :: u₁) (d₂ :: u₂)
          hcs (List.Forall₂.cons hd hrest2)]

/-! ### af_position after n pulls over a chunk file -/

theorem afPosGo_one_yieldhead (cur : Option Nat) (cs : List Chunk) (fuel base : Nat)
    (suf : List Chunk) (hfuel : 1 ≤ fuel) (hsuf : suf ≠ []) :
    afPosGo cur 1 (afrCycle cs fuel base suf) = cur := by
  match fuel, hfuel with
  | fuel + 1, _ =>
    match suf, hsuf with
    | [c], _ => simp [afrCycle, afPosGo]
    | c :: c2 :: rest, _ => simp [afrCycle, afPosGo]

theorem afrCycle_afPosGo :
    ∀ n, 2 ≤ n → ∀ fuel (cs : List Chunk) (base : Nat) (suf : List Chunk) (cur : Option Nat),
      n ≤ suf.length → n ≤ fuel →
      afPosGo cur n (afrCycle cs fuel base suf) = cyclePosTarget base n suf := by
  intro n
  induction n with
  | zero => intro h; omega
  | succ n ihn =>
    intro h2 fuel cs base suf cur hlen hfuel
    match suf, hlen with
    | c :: c2 :: rest, hlen =>
      match fuel, hfuel with
      | fuel + 1, hfuel =>
        by_cases hn1 : n = 1
        · subst hn1
          simp only [afrCycle, afPosGo, cyclePosTarget]
          rw [if_neg (by omega)]
          simp only [Nat.add_sub_cancel, afPosGo]
          exact afPosGo_one_yieldhead _ cs fuel _ (c2 :: rest) (by omega) (by simp)
        · have hn2 : 2 ≤ n := by omega
          simp only [afrCycle, afPosGo]
          rw [if_neg (by omega)]
          simp only [Nat.add_sub_cancel]
          rw [ihn hn2 fuel cs (base + c.bytes.length) (c2 :: rest) (some _)
            (by simpa using hlen) (by omega)]
          match n, hn2 with
          | m + 2, _ => rfl
    | [c], hlen => simp at hlen; omega
    | [], hlen => simp at hlen

theorem c4AmendedPos_cons (c : Chunk) (cs : List Chunk) (m : Nat) (hm : 1 ≤ m) :
    c4AmendedPos (c :: cs) (m + 1) = hdrLineLen c + c.body.length + c4AmendedPos cs m := by
  unfold c4AmendedPos
  match m, hm with
  | m + 1, _ =>
    simp only [List.take_succ_cons, List.map_cons, List.sum_cons, Nat.add_sub_cancel]
    omega

theorem c4AmendedPos_one (c : Chunk) (cs : List Chunk) :
    c4AmendedPos (c :: cs) 1 = hdrLineLen c := rfl

theorem cyclePosTarget_c4 :
    ∀ n, 2 ≤ n → ∀ (cs : List Chunk) (base : Nat), n ≤ cs.length →
      (∀ c ∈ cs, c.padCRs = []) →
      cyclePosTarget base n cs = some (base + c4AmendedPos cs n) := by
  intro n
  induction n with
  | zero => intro h; omega
  | succ n ihn =>
    intro h2 cs base hlen hnp
    match cs, hlen with
    | c :: c2 :: rest, hlen =>
      have hc2 : c2.padBytes.length = 0 := by
        unfold Chunk.padBytes
        rw [hnp c2 (by simp)]
        rfl
      have hcb : c.bytes.length = hdrLineLen c + c.body.length := by
        unfold Chunk.bytes hdrLineLen
        have hc : c.padBytes.length = 0 := by
          unfold Chunk.padBytes
          rw [hnp c (by simp)]
          rfl
        simp only [List.length_append]
        omega
      by_cases hn1 : n = 1
      · subst hn1
        have e1 : c4AmendedPos (c :: c2 :: rest) (1 + 1)
            = hdrLineLen c + c.body.length + hdrLineLen c2 := by
          rw [c4AmendedPos_cons c (c2 :: rest) 1 (by omega), c4AmendedPos_one]
        have e2 : hdrLineLen c2 = c2.headerBytes.length := rfl
        simp only [cyclePosTarget, Option.some.injEq]
        rw [e1]
        omega
      · have hn2 : 2 ≤ n := by omega
        match n, hn2 with
        | m + 2, _ =>
          show cyclePosTarget (base + c.bytes.length) (m + 2) (c2 :: rest) = _
          rw [ihn (by omega) (c2 :: rest) (base + c.bytes.length)
            (by simp at hlen ⊢; omega) (fun x hx => hnp x (by simp [hx]))]
          have e := c4AmendedPos_cons c (c2 :: rest) (m + 2) (by omega)
          simp only [Option.some.injEq]
          omega
    | [c], hlen => simp at hlen; omega
    | [], hlen => simp at hlen

/-- C4 counterexample: over the two-chunk file `"1\na1\nb"` (header
lines of 2 bytes each, bodies `a` and `b`), after the consumer has
drawn 2 records `af_position` is 5, not the claimed
"sum of header-line lengths plus chunk sizes read" `2 + 2 + 1 + 1 = 6`:
the field is assigned after the next header is read but *before* its
body, so it lags the current record's body bytes. -/
theorem c4_counterexample :
    afPosAfterPulls (afrTrace "1\na1\nb".data 5) 2 = some 5
    ∧ (2 + 2) + (1 + 1) = 6
    ∧ afPosAfterPulls (afrTrace "1\na1\nb".data 5) 2 ≠ some ((2 + 2) + (1 + 1)) := by
  decide

/-- C4 amended: for every valid (padding-free, well-formed) chunk file
and every `n` with `2 ≤ n ≤` number of chunks, after the consumer has
drawn `n` records within the first loop the published `af_position`
equals the sum of the lengths of the first `n` header lines plus the
first `n − 1` chunk sizes: each update writes the post-read file
position at the moment it runs, but the update for a record happens on
the *next* pull, after the next chunk's header line has been read and
before its body, so the value observed after `n` records lags the
`n`-th body (and after the first record the field is not yet assigned
at all). -/
theorem c4_amended_afposition (cs : List Chunk) (hwf : ∀ c ∈ cs, c.wfb = true)
    (hnp : ∀ c ∈ cs, c.padCRs = []) (n fuel : Nat)
    (h2 : 2 ≤ n) (hn : n ≤ cs.length) (hfuel : n ≤ fuel) :
    afPosAfterPulls (afrTrace (mkAmmoData cs) fuel) n = some (c4AmendedPos cs n) := by
  have hne : cs ≠ [] := by
    intro h
    subst h
    simp at hn
    omega
  rw [afrTrace_eq_afrCycle cs hwf hne fuel]
  unfold afPosAfterPulls
  rw [afrCycle_afPosGo n h2 fuel cs 0 cs none hn hfuel,
    cyclePosTarget_c4 n h2 cs 0 hn hnp]
  simp

theorem c4_amended_afposition_witness :
    (∀ c ∈ [Chunk.mk [] "1" none ['a'], Chunk.mk [] "1" none ['b']], c.wfb = true)
    ∧ (∀ c ∈ [Chunk.mk [] "1" none ['a'], Chunk.mk [] "1" none ['b']], c.padCRs = [])
    ∧ afPosAfterPulls
        (afrTrace (mkAmmoData [Chunk.mk [] "1" none ['a'], Chunk.mk [] "1" none ['b']]) 5) 2
      = some (c4AmendedPos [Chunk.mk [] "1" none ['a'], Chunk.mk [] "1" none ['b']] 2) := by
  refine ⟨by decide, by decide, ?_⟩
  exact c4_amended_afposition [Chunk.mk [] "1" none ['a'], Chunk.mk [] "1" none ['b']]
    (by decide) (by decide) 2 5 (by decide) (by decide) (by decide)

/-! ### PChunk well-formedness facts -/

theorem space_data : (" " : String).data = [' '] := rfl

theorem pchunk_hdr_data (c : PChunk) :
    c.hdrStr.data = c.sizeStr.data ++ ' ' :: (c.uri.data
      ++ (match c.marker with | none => [] | some m => ' ' :: m.data)) := by
  unfold PChunk.hdrStr
  cases c.marker with
  | none => simp [String.data_append, space_data]
  | some m => simp [String.data_append, space_data]

theorem pchunk_wf_parts (c : PChunk) (h : c.wfb = true) :
    (∀ p ∈ c.pres, p.wfb = true)
    ∧ pyInt c.sizeStr = some (c.body.length : Int)
    ∧ c.body ≠ []
    ∧ (∀ ch ∈ c.sizeStr.data, ch.isDigit = true)
    ∧ (∀ ch ∈ c.sizeStr.data, isPySpace ch = false)
    ∧ c.sizeStr.data ≠ []
    ∧ c.uri.data ≠ []
    ∧ (∀ ch ∈ c.uri.data, isPySpace ch = false)
    ∧ (∀ m, c.marker = some m → m.data ≠ [] ∧ ∀ ch ∈ m.data, isPySpace ch = false) := by
  unfold PChunk.wfb at h
  cases hm : c.marker with
  | none =>
    rw [hm] at h
    simp only [Bool.and_eq_true, beq_iff_eq, Bool.not_eq_true', List.all_eq_true,
      List.isEmpty_eq_false, List.isEmpty_iff, Bool.not_eq_true] at h
    obtain ⟨⟨⟨⟨⟨⟨⟨⟨hp, h1⟩, h2⟩, h3⟩, h4⟩, h5⟩, h6⟩, h7⟩, -⟩ := h
    exact ⟨hp, h1, h2, h3, h4, h5, h6, h7, fun m hm2 => Option.noConfusion hm2⟩
  | some m =>
    rw [hm] at h
    simp only [Bool.and_eq_true, beq_iff_eq, Bool.not_eq_true', List.all_eq_true,
      List.isEmpty_eq_false, List.isEmpty_iff, Bool.not_eq_true] at h
    obtain ⟨⟨⟨⟨⟨⟨⟨⟨hp, h1⟩, h2⟩, h3⟩, h4⟩, h5⟩, h6⟩, h7⟩, h8, h9⟩ := h
    refine ⟨hp, h1, h2, h3, h4, h5, h6, h7, fun m2 hm2 => ?_⟩
    cases hm2
    exact ⟨h8, h9⟩

theorem pchunk_hdr_ne (c : PChunk) (h : c.wfb = true) : c.hdrStr ≠ "" := by
  intro hc
  have := congrArg String.data hc
  rw [pchunk_hdr_data] at this
  simp at this

theorem space_not_nl : ¬ (' ' = '\n') := by decide

theorem pchunk_hdr_no_nl (c : PChunk) (h : c.wfb = true) : '\n' ∉ c.hdrStr.data := by
  obtain ⟨_, _, _, _, h4, _, _, h7, h8⟩ := pchunk_wf_parts c h
  rw [pchunk_hdr_data]
  intro hmem
  rcases List.mem_append.mp hmem with hm | hm
  · have := h4 '\n' hm
    rw [nl_pyspace] at this
    cases this
  · rcases List.mem_cons.mp hm with hm2 | hm2
    · exact space_not_nl hm2.symm
    · rcases List.mem_append.mp hm2 with hm3 | hm3
      · have := h7 '\n' hm3
        rw [nl_pyspace] at this
        cases this
      · revert hm3
        cases hmk : c.marker with
        | none => intro hm3; cases hm3
        | some m =>
          intro hm3
          rcases List.mem_cons.mp hm3 with hm4 | hm4
          · exact space_not_nl hm4.symm
          · have := (h8 m hmk).2 '\n' hm4
            rw [nl_pyspace] at this
            cases this

theorem pchunk_hdr_head (c : PChunk) (h : c.wfb = true) :
    ∀ ch, c.hdrStr.data.head? = some ch → isPySpace ch = false := by
  obtain ⟨_, _, _, _, h4, h5, _⟩ := pchunk_wf_parts c h
  intro ch hch
  rw [pchunk_hdr_data] at hch
  obtain ⟨a, t, hat⟩ := List.exists_cons_of_ne_nil h5
  rw [hat] at hch
  simp only [List.cons_append, List.head?_cons, Option.some.injEq] at hch
  rw [← hch]
  exact h4 a (by rw [hat]; simp)

theorem pchunk_hdr_last (c : PChunk) (h : c.wfb = true) :
    ∀ ch, c.hdrStr.data.getLast? = some ch → isPySpace ch = false := by
  obtain ⟨_, _, _, _, h4, h5, h6, h7, h8⟩ := pchunk_wf_parts c h
  intro ch hch
  rw [pchunk_hdr_data] at hch
  revert hch
  cases hmk : c.marker with
  | none =>
    intro hch
    rw [List.getLast?_append_of_ne_nil _ (by simp)] at hch
    have hcons : (' ' :: (c.uri.data ++ [])).getLast? = c.uri.data.getLast? := by
      rw [List.append_nil]
      obtain ⟨a, t, hat⟩ := List.exists_cons_of_ne_nil h6
      rw [hat]
      rfl
    rw [hcons] at hch
    exact h7 ch (mem_of_getLast_opt _ ch hch)
  | some m =>
    intro hch
    obtain ⟨hm1, hm2⟩ := h8 m hmk
    rw [List.getLast?_append_of_ne_nil _ (by simp)] at hch
    have hcons : (' ' :: (c.uri.data ++ ' ' :: m.data)).getLast? = m.data.getLast? := by
      have h1 : (' ' :: (c.uri.data ++ ' ' :: m.data)) = (' ' :: c.uri.data ++ [' ']) ++ m.data := by
        simp
      rw [h1, List.getLast?_append_of_ne_nil _ hm1]
    rw [hcons] at hch
    exact hm2 ch (mem_of_getLast_opt _ ch hch)

theorem pchunk_hdr_strip (c : PChunk) (h : c.wfb = true) :
    stripCRLF (String.mk (c.hdrStr.data ++ ['\n'])) = c.hdrStr := by
  have h1 : c.hdrStr.data ≠ [] :=
    string_data_ne_nil_of_ne_empty _ (pchunk_hdr_ne c h)
  rw [stripCRLF_clean_line _ h1 (pchunk_hdr_head c h) (pchunk_hdr_last c h)]

theorem pchunk_hdr_split (c : PChunk) (h : c.wfb = true) :
    pySplit c.hdrStr =
      c.sizeStr :: c.uri :: (match c.marker with | none => [] | some m => [m]) := by
  obtain ⟨_, _, _, _, h4, h5, h6, h7, h8⟩ := pchunk_wf_parts c h
  unfold pySplit
  rw [pchunk_hdr_data]
  cases hmk : c.marker with
  | none =>
    rw [List.append_nil, pySplitGo_two _ _ h5 h6 h4 h7]
  | some m =>
    obtain ⟨hm1, hm2⟩ := h8 m hmk
    rw [pySplitGo_three _ _ _ h5 h6 hm1 h4 h7 hm2]

theorem pchunk_hdr_not_bracket (c : PChunk) (h : c.wfb = true) :
    pyStartsWith (String.mk (c.hdrStr.data ++ ['\n'])) "[" = false := by
  obtain ⟨_, _, _, h3, _, h5, _⟩ := pchunk_wf_parts c h
  obtain ⟨a, t, hat⟩ := List.exists_cons_of_ne_nil h5
  have ha : a ≠ '[' := by
    intro hcon
    have := h3 a (by rw [hat]; simp)
    rw [hcon] at this
    cases this
  have hdata : (String.mk (c.hdrStr.data ++ ['\n'])).data = c.hdrStr.data ++ ['\n'] := rfl
  unfold pyStartsWith
  rw [hdata, pchunk_hdr_data, hat]
  have hbr : ("[" : String).data = ['['] := rfl
  rw [hbr]
  simp only [List.cons_append, List.isPrefixOf, Bool.and_eq_false_iff]
  left
  simp only [beq_eq_false_iff_ne, ne_eq]
  exact fun hc => ha hc.symm

/-! ### UriPostReader read_chunk_header specification -/

theorem blank_line_not_bracket (k : Nat) :
    pyStartsWith (String.mk (List.replicate k '\r' ++ ['\n'])) "[" = false := by
  cases k with
  | zero => rfl
  | succ k =>
    rw [List.replicate_succ]
    unfold pyStartsWith
    have hbr : ("[" : String).data = ['['] := rfl
    rw [hbr]
    show List.isPrefixOf ['['] (('\r' :: List.replicate k '\r') ++ ['\n']) = false
    simp [List.isPrefixOf]

theorem bracket_line_starts (s : String) (hwf : (PreLine.bracket s).wfb = true) :
    pyStartsWith (String.mk (s.data ++ ['\n'])) "[" = true := by
  unfold PreLine.wfb at hwf
  simp only [Bool.and_eq_true] at hwf
  obtain ⟨hst, -⟩ := hwf
  unfold pyStartsWith at hst ⊢
  have hbr : ("[" : String).data = ['['] := rfl
  rw [hbr] at hst ⊢
  have hdata : (String.mk (s.data ++ ['\n'])).data = s.data ++ ['\n'] := rfl
  rw [hdata]
  cases hd : s.data with
  | nil => rw [hd] at hst; cases hst
  | cons a t =>
    rw [hd] at hst
    simp only [List.cons_append]
    simp only [List.isPrefixOf] at hst ⊢
    simpa using hst

theorem bracket_line_no_nl (s : String) (hwf : (PreLine.bracket s).wfb = true) :
    '\n' ∉ s.data := by
  unfold PreLine.wfb at hwf
  simp only [Bool.and_eq_true, Bool.not_eq_true'] at hwf
  obtain ⟨-, hnl⟩ := hwf
  simp only [List.contains, List.elem_eq_mem, decide_eq_false_iff_not] at hnl
  exact hnl

theorem preBytes_length_ge (pres : List PreLine) :
    pres.length ≤ ((pres.map PreLine.bytes).flatten).length := by
  induction pres with
  | nil => simp
  | cons p ps ih =>
    simp only [List.map_cons, List.flatten_cons, List.length_append, List.length_cons]
    have hp : 1 ≤ p.bytes.length := by
      cases p with
      | blank k => simp [PreLine.bytes]
      | bracket s => simp [PreLine.bytes]
    omega

theorem applyPres_nil (hs : List String) : applyPres hs [] = hs := rfl

theorem applyPres_cons (hs : List String) (p : PreLine) (ps : List PreLine) :
    applyPres hs (p :: ps) = applyPres (p.applyTo hs) ps := rfl

theorem uprRchAux_spec (data : List Char) :
    ∀ (pres : List PreLine) (fuel pos : Nat) (hs : List String) (h : String)
      (rest : List Char),
      pres.length + 1 ≤ fuel →
      (∀ p ∈ pres, p.wfb = true) →
      data.drop pos = (pres.map PreLine.bytes).flatten ++ (h.data ++ '\n' :: rest) →
      '\n' ∉ h.data → h ≠ "" →
      stripCRLF (String.mk (h.data ++ ['\n'])) = h →
      pyStartsWith (String.mk (h.data ++ ['\n'])) "[" = false →
      uprRchAux fuel hs ⟨data, pos⟩ =
        ⟨h, ⟨data, pos + (((pres.map PreLine.bytes).flatten).length + (h.data.length + 1))⟩,
          applyPres hs pres⟩ := by
  intro pres
  induction pres with
  | nil =>
    intro fuel pos hs h rest hfuel hpwf hdrop hnl hne hstrip hnb
    match fuel, hfuel with
    | fuel + 1, _ =>
      simp only [List.map_nil, List.flatten_nil, List.nil_append] at hdrop
      have hline := readline_line data pos h.data rest hdrop hnl
      have hlne : String.mk (h.data ++ ['\n']) ≠ "" := by
        intro hcon
        have := congrArg String.data hcon
        simp at this
      simp only [uprRchAux, hline, hnb, Bool.false_eq_true, if_false, hlne, hstrip, hne,
        List.map_nil, List.flatten_nil, List.length_nil, applyPres_nil]
      simp [hne]
  | cons p ps ih =>
    intro fuel pos hs h rest hfuel hpwf hdrop hnl hne hstrip hnb
    match fuel, hfuel with
    | fuel + 1, hfuel =>
      have hfuel2 : ps.length + 1 ≤ fuel := by
        simp only [List.length_cons] at hfuel
        omega
      have hpwf2 : ∀ q ∈ ps, q.wfb = true := fun q hq => hpwf q (by simp [hq])
      simp only [List.map_cons, List.flatten_cons, List.append_assoc] at hdrop
      cases p with
      | blank k =>
        have hdrop2 : data.drop pos =
            List.replicate k '\r' ++ '\n' ::
              ((ps.map PreLine.bytes).flatten ++ (h.data ++ '\n' :: rest)) := by
          rw [hdrop]
          show (PreLine.blank k).bytes ++ _ = _
          unfold PreLine.bytes
          simp
        have hline := readline_line data pos (List.replicate k '\r') _ hdrop2
          (newline_not_mem_replicate_cr k)
        simp only [List.length_replicate] at hline
        have hlne : String.mk (List.replicate k '\r' ++ ['\n']) ≠ "" := by
          intro hcon
          have := congrArg String.data hcon
          simp at this
        have hdropnext : data.drop (pos + (k + 1)) =
            (ps.map PreLine.bytes).flatten ++ (h.data ++ '\n' :: rest) := by
          have hdd : data.drop (pos + (k + 1)) = (data.drop pos).drop (k + 1) := by
            rw [List.drop_drop]
          rw [hdd, hdrop2]
          have hsh : List.replicate k '\r' ++ '\n' ::
              ((ps.map PreLine.bytes).flatten ++ (h.data ++ '\n' :: rest))
              = (List.replicate k '\r' ++ ['\n'])
                ++ ((ps.map PreLine.bytes).flatten ++ (h.data ++ '\n' :: rest)) := by
            simp
          rw [hsh]
          refine List.drop_left' ?_
          simp
        have hres := ih fuel (pos + (k + 1)) hs h rest hfuel2 hpwf2 hdropnext hnl hne hstrip hnb
        simp only [uprRchAux, hline, blank_line_not_bracket k, Bool.false_eq_true, if_false,
          hlne, stripCRLF_blank k, if_pos]
        rw [hres]
        show (⟨h, ⟨data, _⟩, _⟩ : UprRchR) = ⟨h, ⟨data, _⟩, _⟩
        have harith : pos + (k + 1) + (((ps.map PreLine.bytes).flatten).length + (h.data.length + 1))
            = pos + ((((PreLine.blank k).bytes :: ps.map PreLine.bytes).flatten).length
              + (h.data.length + 1)) := by
          unfold PreLine.bytes
          simp only [List.flatten_cons, List.length_append, List.length_replicate,
            List.length_cons, List.length_nil]
          omega
        rw [harith]
        rfl
      | bracket s =>
        have hswf : (PreLine.bracket s).wfb = true := hpwf _ (by simp)
        have hdrop2 : data.drop pos =
            s.data ++ '\n' ::
              ((ps.map PreLine.bytes).flatten ++ (h.data ++ '\n' :: rest)) := by
          rw [hdrop]
          show (PreLine.bracket s).bytes ++ _ = _
          unfold PreLine.bytes
          simp
        have hline := readline_line data pos s.data _ hdrop2 (bracket_line_no_nl s hswf)
        have hdropnext : data.drop (pos + (s.data.length + 1)) =
            (ps.map PreLine.bytes).flatten ++ (h.data ++ '\n' :: rest) := by
          have hdd : data.drop (pos + (s.data.length + 1))
              = (data.drop pos).drop (s.data.length + 1) := by
            rw [List.drop_drop]
          rw [hdd, hdrop2]
          have hsh : s.data ++ '\n' ::
              ((ps.map PreLine.bytes).flatten ++ (h.data ++ '\n' :: rest))
              = (s.data ++ ['\n'])
                ++ ((ps.map PreLine.bytes).flatten ++ (h.data ++ '\n' :: rest)) := by
            simp
          rw [hsh]
          refine List.drop_left' ?_
          simp
        have hres := ih fuel (pos + (s.data.length + 1))
          (pySetAdd hs (pyStrip brStripSet (String.mk (s.data ++ ['\n']))))
          h rest hfuel2 hpwf2 hdropnext hnl hne hstrip hnb
        simp only [uprRchAux, hline, bracket_line_starts s hswf, if_pos]
        rw [hres]
        show (⟨h, ⟨data, _⟩, _⟩ : UprRchR) = ⟨h, ⟨data, _⟩, _⟩
        have harith : pos + (s.data.length + 1)
              + (((ps.map PreLine.bytes).flatten).length + (h.data.length + 1))
            = pos + ((((PreLine.bracket s).bytes :: ps.map PreLine.bytes).flatten).length
              + (h.data.length + 1)) := by
          unfold PreLine.bytes
          simp only [List.flatten_cons, List.length_append, List.length_cons, List.length_nil]
          omega
        rw [harith]
        rfl

theorem upr_read_chunk_header_spec (data : List Char) (pres : List PreLine) (pos : Nat)
    (hs : List String) (h : String) (rest : List Char)
    (hpwf : ∀ p ∈ pres, p.wfb = true)
    (hdrop : data.drop pos = (pres.map PreLine.bytes).flatten ++ (h.data ++ '\n' :: rest))
    (hnl : '\n' ∉ h.data) (hne : h ≠ "")
    (hstrip : stripCRLF (String.mk (h.data ++ ['\n'])) = h)
    (hnb : pyStartsWith (String.mk (h.data ++ ['\n'])) "[" = false) :
    upr_read_chunk_header hs ⟨data, pos⟩ =
      ⟨h, ⟨data, pos + (((pres.map PreLine.bytes).flatten).length + (h.data.length + 1))⟩,
        applyPres hs pres⟩ := by
  unfold upr_read_chunk_header
  refine uprRchAux_spec data pres (data.length + 1) pos hs h rest ?_ hpwf hdrop hnl hne
    hstrip hnb
  have h1 : (data.drop pos).length ≤ data.length := by
    rw [List.length_drop]
    omega
  have h2 : (data.drop pos).length
      = ((pres.map PreLine.bytes).flatten).length + (h.data.length + 1 + rest.length) := by
    rw [hdrop]
    simp only [List.length_append, List.length_cons]
    omega
  have h3 := preBytes_length_ge pres
  omega

theorem upr_read_chunk_header_eof (data : List Char) (pos : Nat) (hs : List String)
    (h : data.drop pos = []) :
    upr_read_chunk_header hs ⟨data, pos⟩ = ⟨"", ⟨data, pos⟩, hs⟩ := by
  unfold upr_read_chunk_header
  have hline := readline_eof data pos h
  have hnb : pyStartsWith "" "[" = false := rfl
  simp only [uprRchAux, hline, hnb, Bool.false_eq_true, if_false, if_pos]

/-! ### UriPostReader over well-formed chunk files: closed form -/

theorem mkUriPostData_append (xs ys : List PChunk) :
    mkUriPostData (xs ++ ys) = mkUriPostData xs ++ mkUriPostData ys := by
  simp [mkUriPostData]

theorem mkUriPostData_cons (c : PChunk) (cs : List PChunk) :
    mkUriPostData (c :: cs) = c.bytes ++ mkUriPostData cs := by
  simp [mkUriPostData]

theorem pchunk_bytes_decomp (c : PChunk) :
    c.bytes = c.preBytes ++ (c.hdrStr.data ++ '\n' :: c.body) := by
  unfold PChunk.bytes PChunk.headerBytes
  simp [List.append_assoc]

theorem pchunk_preBytes_eq (c : PChunk) :
    c.preBytes = (c.pres.map PreLine.bytes).flatten := rfl

theorem pmarker_fields_head (c : PChunk) :
    (match c.marker with | none => ([] : List String) | some m => [m]).head? = c.marker := by
  cases c.marker <;> rfl

theorem uprLoop_eq_uprCycle (ver : String) (cs : List PChunk)
    (hwf : ∀ x ∈ cs, x.wfb = true) :
    ∀ fuel pre c suf hs, cs = pre ++ c :: suf →
      uprLoop fuel ver hs
        ⟨mkUriPostData cs,
          (mkUriPostData pre).length + c.preBytes.length + c.headerBytes.length⟩
        c.hdrStr
      = uprCycle ver cs fuel hs (mkUriPostData pre).length (c :: suf) := by
  intro fuel
  induction fuel with
  | zero => intro pre c suf hs hcs; rfl
  | succ fuel ih =>
    intro pre c suf hs hcs
    have hc : c ∈ cs := by rw [hcs]; simp
    have hcwf := hwf c hc
    obtain ⟨hpres, hint, hbody, hdig, hnosp, hszne, hurine, hurisp, hmk⟩ :=
      pchunk_wf_parts c hcwf
    have hch : c.hdrStr ≠ "" := pchunk_hdr_ne c hcwf
    have hsplit := pchunk_hdr_split c hcwf
    have hdecomp : mkUriPostData cs = (mkUriPostData pre ++ c.preBytes ++ c.headerBytes)
        ++ (c.body ++ mkUriPostData suf) := by
      rw [hcs, mkUriPostData_append, mkUriPostData_cons]
      unfold PChunk.bytes
      simp [List.append_assoc]
    have hdrop : (mkUriPostData cs).drop
        ((mkUriPostData pre).length + c.preBytes.length + c.headerBytes.length)
        = c.body ++ mkUriPostData suf := by
      rw [hdecomp]
      refine List.drop_left' ?_
      simp only [List.length_append]
    have hread := file_read_exact (mkUriPostData cs)
      ((mkUriPostData pre).length + c.preBytes.length + c.headerBytes.length)
      c.body (mkUriPostData suf) hdrop
    have hsz0 : ¬ ((c.body.length : Int) = 0) := by
      have hb : c.body.length ≠ 0 := by
        intro h0
        exact hbody (List.eq_nil_of_length_eq_zero h0)
      omega
    have hnotrunc : ¬ (((String.mk c.body).length : Int) < (c.body.length : Int)) := by
      rw [string_length_mk]
      omega
    simp only [uprLoop, hch, ne_eq, not_false_iff, if_neg, hsplit, hint, hsz0, if_false,
      pmarker_fields_head, hread, hnotrunc]
    cases suf with
    | cons c2 suf2 =>
      have hc2wf := hwf c2 (by rw [hcs]; simp)
      have hc2pres : ∀ p ∈ c2.pres, p.wfb = true := (pchunk_wf_parts c2 hc2wf).1
      have hdd : (mkUriPostData cs).drop
          ((mkUriPostData pre).length + c.preBytes.length + c.headerBytes.length
            + c.body.length)
          = mkUriPostData (c2 :: suf2) := by
        have h1 : (mkUriPostData cs).drop
            ((mkUriPostData pre).length + c.preBytes.length + c.headerBytes.length
              + c.body.length)
            = ((mkUriPostData cs).drop
                ((mkUriPostData pre).length + c.preBytes.length + c.headerBytes.length)).drop
                c.body.length := by
          rw [List.drop_drop]
        rw [h1, hdrop]
        exact List.drop_left c.body _
      have hdrop2 : (mkUriPostData cs).drop
          ((mkUriPostData pre).length + c.preBytes.length + c.headerBytes.length
            + c.body.length)
          = (c2.pres.map PreLine.bytes).flatten
            ++ (c2.hdrStr.data ++ '\n' :: (c2.body ++ mkUriPostData suf2)) := by
        rw [hdd, mkUriPostData_cons, pchunk_bytes_decomp, pchunk_preBytes_eq]
        simp [List.append_assoc]
      have hrch := upr_read_chunk_header_spec (mkUriPostData cs) c2.pres
        ((mkUriPostData pre).length + c.preBytes.length + c.headerBytes.length
          + c.body.length)
        hs c2.hdrStr (c2.body ++ mkUriPostData suf2) hc2pres hdrop2
        (pchunk_hdr_no_nl c2 hc2wf) (pchunk_hdr_ne c2 hc2wf) (pchunk_hdr_strip c2 hc2wf)
        (pchunk_hdr_not_bracket c2 hc2wf)
      have hc2ne := pchunk_hdr_ne c2 hc2wf
      have hpos2 : (mkUriPostData pre).length + c.preBytes.length + c.headerBytes.length
            + c.body.length
            + (((c2.pres.map PreLine.bytes).flatten).length + (c2.hdrStr.data.length + 1))
          = (mkUriPostData (pre ++ [c])).length + c2.preBytes.length
            + c2.headerBytes.length := by
        rw [mkUriPostData_append, mkUriPostData_cons]
        unfold PChunk.bytes PChunk.headerBytes PChunk.preBytes
        simp only [List.length_append, mkUriPostData, List.map_nil, List.flatten_nil,
          List.length_nil, List.length_cons]
        omega
      have hcs2 : cs = (pre ++ [c]) ++ c2 :: suf2 := by
        rw [hcs]
        simp
      have hbase : (mkUriPostData (pre ++ [c])).length
          = (mkUriPostData pre).length + c.bytes.length := by
        rw [mkUriPostData_append, mkUriPostData_cons]
        simp [mkUriPostData]
      simp only [hrch, hc2ne, ne_eq, not_false_iff, if_neg, if_false, File.tell]
      rw [hpos2, ih (pre ++ [c]) c2 suf2 (applyPres hs c2.pres) hcs2]
      show _ = uprCycle ver cs (fuel + 1) hs (mkUriPostData pre).length (c :: c2 :: suf2)
      simp only [uprCycle]
      rw [hbase]
      rfl
    | nil =>
      obtain ⟨c0, cs0, hcs0⟩ : ∃ c0 cs0, cs = c0 :: cs0 := by
        cases cs with
        | nil =>
          exfalso
          have hlc := congrArg List.length hcs
          simp at hlc
        | cons a t => exact ⟨a, t, rfl⟩
      have hc0wf := hwf c0 (by rw [hcs0]; simp)
      have hc0pres : ∀ p ∈ c0.pres, p.wfb = true := (pchunk_wf_parts c0 hc0wf).1
      have hlen : (mkUriPostData pre).length + c.preBytes.length + c.headerBytes.length
          + c.body.length = (mkUriPostData cs).length := by
        rw [hdecomp]
        simp only [List.length_append, mkUriPostData, List.map_nil, List.flatten_nil,
          List.length_nil]
        omega
      have heof : (mkUriPostData cs).drop
          ((mkUriPostData pre).length + c.preBytes.length + c.headerBytes.length
            + c.body.length)
          = [] := by
        rw [hlen]
        exact List.drop_length _
      have hrch1 := upr_read_chunk_header_eof (mkUriPostData cs) _ hs heof
      have hdrop0 : (mkUriPostData cs).drop 0
          = (c0.pres.map PreLine.bytes).flatten
            ++ (c0.hdrStr.data ++ '\n' :: (c0.body ++ mkUriPostData cs0)) := by
        rw [List.drop_zero, hcs0, mkUriPostData_cons, pchunk_bytes_decomp,
          pchunk_preBytes_eq]
        simp [List.append_assoc]
      have hrch0 := upr_read_chunk_header_spec (mkUriPostData cs) c0.pres 0 hs
        c0.hdrStr (c0.body ++ mkUriPostData cs0) hc0pres hdrop0
        (pchunk_hdr_no_nl c0 hc0wf) (pchunk_hdr_ne c0 hc0wf) (pchunk_hdr_strip c0 hc0wf)
        (pchunk_hdr_not_bracket c0 hc0wf)
      have hcsd : cs = [] ++ c0 :: cs0 := by rw [hcs0]; rfl
      have hih := ih [] c0 cs0 (applyPres hs c0.pres) hcsd
      have hpos0 : 0 + (((c0.pres.map PreLine.bytes).flatten).length
            + (c0.hdrStr.data.length + 1))
          = (mkUriPostData ([] : List PChunk)).length + c0.preBytes.length
            + c0.headerBytes.length := by
        unfold PChunk.headerBytes PChunk.preBytes
        simp only [List.length_append, mkUriPostData, List.map_nil, List.flatten_nil,
          List.length_nil, List.length_cons]
        omega
      simp only [hrch1, if_pos, File.seek0, File.tell, hrch0]
      rw [hpos0, hih]
      show _ = uprCycle ver cs (fuel + 1) hs (mkUriPostData pre).length [c]
      simp only [uprCycle]
      rw [hcs0]
      show _ = Ev.yield (uprChunkPayload ver hs c) c.marker :: Ev.incLoop ::
        Ev.setAfPos (uprFirstHdrPos (c0 :: cs0)) ::
          uprCycle ver (c0 :: cs0) fuel (applyPres hs c0.pres) 0 (c0 :: cs0)
      simp [mkUriPostData, uprFirstHdrPos, uprChunkPayload]

theorem uprTrace_eq_uprCycle (cs : List PChunk) (hwf : ∀ x ∈ cs, x.wfb = true)
    (hne : cs ≠ []) (ver : String) (hs0 : List String) (fuel : Nat) :
    uprTrace (mkUriPostData cs) ver hs0 fuel
      = uprCycle ver cs fuel
          (applyPres (pySetOfList hs0)
            (match cs with | [] => [] | c0 :: _ => c0.pres)) 0 cs := by
  obtain ⟨c0, cs0, rfl⟩ := List.exists_cons_of_ne_nil hne
  unfold uprTrace
  have hc0wf := hwf c0 (by simp)
  have hc0pres : ∀ p ∈ c0.pres, p.wfb = true := (pchunk_wf_parts c0 hc0wf).1
  have hdrop0 : (mkUriPostData (c0 :: cs0)).drop 0
      = (c0.pres.map PreLine.bytes).flatten
        ++ (c0.hdrStr.data ++ '\n' :: (c0.body ++ mkUriPostData cs0)) := by
    rw [List.drop_zero, mkUriPostData_cons, pchunk_bytes_decomp, pchunk_preBytes_eq]
    simp [List.append_assoc]
  have hrch0 := upr_read_chunk_header_spec (mkUriPostData (c0 :: cs0)) c0.pres 0
    (pySetOfList hs0) c0.hdrStr (c0.body ++ mkUriPostData cs0) hc0pres hdrop0
    (pchunk_hdr_no_nl c0 hc0wf) (pchunk_hdr_ne c0 hc0wf) (pchunk_hdr_strip c0 hc0wf)
    (pchunk_hdr_not_bracket c0 hc0wf)
  simp only [hrch0]
  have hpos0 : 0 + (((c0.pres.map PreLine.bytes).flatten).length
        + (c0.hdrStr.data.length + 1))
      = (mkUriPostData ([] : List PChunk)).length + c0.preBytes.length
        + c0.headerBytes.length := by
    unfold PChunk.headerBytes PChunk.preBytes
    simp only [List.length_append, mkUriPostData, List.map_nil, List.flatten_nil,
      List.length_nil, List.length_cons]
    omega
  rw [hpos0, uprLoop_eq_uprCycle ver (c0 :: cs0) hwf fuel [] c0 cs0
    (applyPres (pySetOfList hs0) c0.pres) rfl]
  congr 1

theorem applyPres_eq_brackets (hs : List String) :
    ∀ pres : List PreLine,
      applyPres hs pres = (bracketsOf pres).foldl
        (fun acc s => pySetAdd acc (pyStrip brStripSet (String.mk (s.data ++ ['\n'])))) hs := by
  intro pres
  induction pres generalizing hs with
  | nil => rfl
  | cons p ps ih =>
    cases p with
    | blank k =>
      rw [applyPres_cons]
      show applyPres hs ps = _
      rw [ih hs]
      rfl
    | bracket s =>
      rw [applyPres_cons]
      show applyPres (pySetAdd hs (pyStrip brStripSet (String.mk (s.data ++ ['\n'])))) ps = _
      rw [ih]
      rfl

theorem applyPres_congr_brackets (hs : List String) (pres₁ pres₂ : List PreLine)
    (h : bracketsOf pres₁ = bracketsOf pres₂) :
    applyPres hs pres₁ = applyPres hs pres₂ := by
  rw [applyPres_eq_brackets hs pres₁, applyPres_eq_brackets hs pres₂, h]

theorem uprCycle_records_eq (ver : String) :
    ∀ fuel (cs₁ cs₂ : List PChunk) (hs : List String) (b₁ b₂ : Nat)
      (suf₁ suf₂ : List PChunk),
      List.Forall₂ SameModuloBlanks cs₁ cs₂ →
      List.Forall₂ SameModuloBlanks suf₁ suf₂ →
      recordsOf (uprCycle ver cs₁ fuel hs b₁ suf₁)
        = recordsOf (uprCycle ver cs₂ fuel hs b₂ suf₂) := by
  intro fuel
  induction fuel with
  | zero => intros; rfl
  | succ fuel ih =>
    intro cs₁ cs₂ hs b₁ b₂ suf₁ suf₂ hcs hsuf
    cases hsuf with
    | nil => rfl
    | @cons c₁ c₂ t₁ t₂ hc hrest =>
      obtain ⟨hbr, hsz, hu, hm, hb⟩ := hc
      have hpay : uprChunkPayload ver hs c₁ = uprChunkPayload ver hs c₂ := by
        unfold uprChunkPayload
        rw [hu, hb]
      cases hrest with
      | nil =>
        cases hcs with
        | nil =>
          simp only [uprCycle, recordsOf_cons_yield, recordsOf_cons_incLoop,
            recordsOf_cons_setAfPos, hpay, hm]
        | @cons d₁ d₂ u₁ u₂ hd hrest2 =>
          simp only [uprCycle, recordsOf_cons_yield, recordsOf_cons_incLoop,
            recordsOf_cons_setAfPos, hpay, hm]
          rw [applyPres_congr_brackets hs d₁.pres d₂.pres hd.1,
            ih (d₁ :: u₁) (d₂ :: u₂) _ 0 0 (d₁ :: u₁) (d₂ :: u₂)
              (List.Forall₂.cons hd hrest2) (List.Forall₂.cons hd hrest2)]
      | @cons d₁ d₂ u₁ u₂ hd hrest2 =>
        simp only [uprCycle, recordsOf_cons_yield, recordsOf_cons_setAfPos, hpay, hm]
        rw [applyPres_congr_brackets hs d₁.pres d₂.pres hd.1,
          ih cs₁ cs₂ _ (b₁ + c₁.bytes.length) (b₂ + c₂.bytes.length) (d₁ :: u₁) (d₂ :: u₂)
            hcs (List.Forall₂.cons hd hrest2)]

theorem afrLoop_empty_header (fuel : Nat) (f : File) : afrLoop fuel f "" = [] := by
  cases fuel with
  | zero => rfl
  | succ fuel => simp [afrLoop]

theorem uprLoop_empty_header (fuel : Nat) (ver : String) (hs : List String) (f : File) :
    uprLoop fuel ver hs f "" = [] := by
  cases fuel with
  | zero => rfl
  | succ fuel => simp [uprLoop]

/-- C10: inserting blank lines (lines that strip to empty under
`strip('\r\n')`) before any chunk header changes neither the sequence of
`(payload, marker)` records of `AmmoFileReader` nor the sequence of
rendered records of `UriPostReader`: over two well-formed chunk files
that agree except for blank-line padding (and, for `UriPostReader`,
agree on the bracketed header lines), the yielded records are equal —
`read_chunk_header` skips blank lines while scanning for the next
header instead of treating them as malformed headers or end of input. -/
theorem c10_blank_lines_no_record_change
    (cs₁ cs₂ : List Chunk) (fuel : Nat)
    (hwf₁ : ∀ c ∈ cs₁, c.wfb = true) (hwf₂ : ∀ c ∈ cs₂, c.wfb = true)
    (hrel : List.Forall₂ SameModuloPads cs₁ cs₂)
    (ver : String) (hs0 : List String) (ps₁ ps₂ : List PChunk) (fuel2 : Nat)
    (hpwf₁ : ∀ c ∈ ps₁, c.wfb = true) (hpwf₂ : ∀ c ∈ ps₂, c.wfb = true)
    (hprel : List.Forall₂ SameModuloBlanks ps₁ ps₂) :
    recordsOf (afrTrace (mkAmmoData cs₁) fuel)
      = recordsOf (afrTrace (mkAmmoData cs₂) fuel)
    ∧ recordsOf (uprTrace (mkUriPostData ps₁) ver hs0 fuel2)
      = recordsOf (uprTrace (mkUriPostData ps₂) ver hs0 fuel2) := by
  constructor
  · cases hrel with
    | nil => rfl
    | @cons c₁ c₂ t₁ t₂ hc hrest =>
      rw [afrTrace_eq_afrCycle _ hwf₁ (by simp) fuel,
        afrTrace_eq_afrCycle _ hwf₂ (by simp) fuel]
      exact afrCycle_records_eq fuel _ _ 0 0 _ _ (List.Forall₂.cons hc hrest)
        (List.Forall₂.cons hc hrest)
  · cases hprel with
    | nil => rfl
    | @cons c₁ c₂ t₁ t₂ hc hrest =>
      rw [uprTrace_eq_uprCycle _ hpwf₁ (by simp) ver hs0 fuel2,
        uprTrace_eq_uprCycle _ hpwf₂ (by simp) ver hs0 fuel2]
      show recordsOf (uprCycle ver (c₁ :: t₁) fuel2
          (applyPres (pySetOfList hs0) c₁.pres) 0 (c₁ :: t₁)) = _
      rw [applyPres_congr_brackets (pySetOfList hs0) c₁.pres c₂.pres hc.1]
      exact uprCycle_records_eq ver fuel2 _ _ _ 0 0 _ _ (List.Forall₂.cons hc hrest)
        (List.Forall₂.cons hc hrest)

theorem c10_blank_lines_no_record_change_witness :
    (∀ c ∈ [Chunk.mk [1] "1" none ['a']], c.wfb = true)
    ∧ (∀ c ∈ [Chunk.mk [] "1" none ['a']], c.wfb = true)
    ∧ (∀ c ∈ [PChunk.mk [PreLine.blank 0] "1" "/u" none ['a']], c.wfb = true)
    ∧ (∀ c ∈ [PChunk.mk [] "1" "/u" none ['a']], c.wfb = true)
    ∧ recordsOf (afrTrace (mkAmmoData [Chunk.mk [1] "1" none ['a']]) 3)
      = recordsOf (afrTrace (mkAmmoData [Chunk.mk [] "1" none ['a']]) 3)
    ∧ recordsOf
        (uprTrace (mkUriPostData [PChunk.mk [PreLine.blank 0] "1" "/u" none ['a']])
          "1.1" [] 3)
      = recordsOf (uprTrace (mkUriPostData [PChunk.mk [] "1" "/u" none ['a']]) "1.1" [] 3) := by
  refine ⟨by decide, by decide, by decide, by decide, ?_, ?_⟩
  · exact (c10_blank_lines_no_record_change
      [Chunk.mk [1] "1" none ['a']] [Chunk.mk [] "1" none ['a']] 3 (by decide) (by decide)
      (List.Forall₂.cons ⟨rfl, rfl, rfl⟩ List.Forall₂.nil)
      "1.1" [] [PChunk.mk [PreLine.blank 0] "1" "/u" none ['a']]
      [PChunk.mk [] "1" "/u" none ['a']] 3 (by decide) (by decide)
      (List.Forall₂.cons ⟨rfl, rfl, rfl, rfl, rfl⟩ List.Forall₂.nil)).1
  · exact (c10_blank_lines_no_record_change
      [Chunk.mk [1] "1" none ['a']] [Chunk.mk [] "1" none ['a']] 3 (by decide) (by decide)
      (List.Forall₂.cons ⟨rfl, rfl, rfl⟩ List.Forall₂.nil)
      "1.1" [] [PChunk.mk [PreLine.blank 0] "1" "/u" none ['a']]
      [PChunk.mk [] "1" "/u" none ['a']] 3 (by decide) (by decide)
      (List.Forall₂.cons ⟨rfl, rfl, rfl, rfl, rfl⟩ List.Forall₂.nil)).2
